import Mathlib

/-!
Verification development for the `escala` monthly shift-roster scheduler.

The Python sources are shallowly embedded:
* calendar dates (`datetime.date`) are embedded as their day count since
  1970-01-01 (Python's `date.toordinal() - 719163`); the proleptic Gregorian
  component extraction (`.year`, `.month`, `.day`, `.weekday()`) and civil
  construction (`date(y, m, d)`) are the standard civil/rata-die conversion
  formulas that `datetime` implements;
* `datetime.datetime` timestamps occurring in shift instances are whole hours
  in the sources, so they are embedded as integer hour counts since the epoch;
* CP-SAT models become explicit lists of constraints together with a boolean
  evaluation function over candidate assignments, and `model.Add(var == 0)`
  style forcings become explicit lists of forced variables;
* the CP-SAT solver itself is abstracted as an oracle wherever a claim is
  about the driver's control flow rather than about the solver.
-/

namespace Escala

/-! ## Dates (embedding of `datetime.date`) -/

/-- A calendar date, as the number of days since 1970-01-01. -/
abbrev Date := Int

/-- Gregorian leap-year rule (as used by `calendar.monthrange`). -/
def isLeap (y : Int) : Bool :=
  y % 4 == 0 && (y % 100 != 0 || y % 400 == 0)

/-- Number of days in a month (`calendar.monthrange(y, m)[1]`). -/
def monthLength (y : Int) (m : Int) : Int :=
  if m = 2 then (if isLeap y then 29 else 28)
  else if m = 4 ∨ m = 6 ∨ m = 9 ∨ m = 11 then 30
  else 31

/-- `datetime.date(y, m, d).toordinal()` shifted to the 1970 epoch: the civil
to day-count conversion of the proleptic Gregorian calendar. -/
def daysFromCivil (y m d : Int) : Date :=
  let y' : Int := if m ≤ 2 then y - 1 else y
  let era : Int := (if 0 ≤ y' then y' else y' - 399) / 400
  let yoe : Int := y' - era * 400
  let mp : Int := if m > 2 then m - 3 else m + 9
  let doy : Int := (153 * mp + 2) / 5 + d - 1
  let doe : Int := yoe * 365 + yoe / 4 - yoe / 100 + doy
  era * 146097 + doe - 719468

/-- Inverse conversion: the (year, month, day) components of a day count, as
computed by `datetime.date`'s accessors. -/
def civilFromDays (z : Date) : Int × Int × Int :=
  let z' := z + 719468
  let era : Int := (if 0 ≤ z' then z' else z' - 146096) / 146097
  let doe : Int := z' - era * 146097
  let yoe : Int := (doe - doe / 1460 + doe / 36524 - doe / 146096) / 365
  let y : Int := yoe + era * 400
  let doy : Int := doe - (365 * yoe + yoe / 4 - yoe / 100)
  let mp : Int := (5 * doy + 2) / 153
  let d : Int := doy - (153 * mp + 2) / 5 + 1
  let m : Int := if mp < 10 then mp + 3 else mp - 9
  (if m ≤ 2 then y + 1 else y, m, d)

/-- `d.year`. -/
def yearOf (d : Date) : Int := (civilFromDays d).1

/-- `d.month`. -/
def monthOf (d : Date) : Int := (civilFromDays d).2.1

/-- `d.day`. -/
def dayOf (d : Date) : Int := (civilFromDays d).2.2

/-- `d.weekday()`: Monday = 0, ..., Sunday = 6 (1970-01-01 was a Thursday). -/
def weekdayOf (d : Date) : Int := (d + 3) % 7

/-- `datetime.date(y, m, d)` including its `ValueError` on out-of-range
components, as `Option`. -/
def mkDate? (y m dd : Int) : Option Date :=
  if 1 ≤ m ∧ m ≤ 12 ∧ 1 ≤ dd ∧ dd ≤ monthLength y m then
    some (daysFromCivil y m dd)
  else none

/-! ## Constants (`constants.py`) -/

/-- One entry of the `SHIFTS` configuration table. -/
structure ShiftConfig where
  startHour : Int
  endHour : Int
  dur : Int
  night : Bool
  deriving DecidableEq, Repr

/-- `SHIFTS`: the three shift types; the night shift ends at hour 32, i.e.
08:00 of the next calendar day. -/
def SHIFTS : List (String × ShiftConfig) :=
  [("M1", ⟨8, 20, 12, false⟩), ("M2", ⟨8, 23, 15, false⟩), ("N", ⟨20, 32, 12, true⟩)]

/-- `SHIFT_TYPES = list(SHIFTS.keys())`. -/
def SHIFT_TYPES : List String := SHIFTS.map Prod.fst

/-- `MIN_REST_HOURS`. -/
def MIN_REST_HOURS : Int := 24

/-- `NIGHT_SHIFT_CONSECUTIVE_MIN_HOURS`. -/
def NIGHT_SHIFT_CONSECUTIVE_MIN_HOURS : Int := 96

/-- `EQUITY_STATS`: the ten equity bucket names, in priority order. -/
def EQUITY_STATS : List String :=
  ["sun_holiday_m2", "sat_n", "sat_m2", "sun_holiday_n", "sun_holiday_m1",
   "sat_m1", "fri_night", "weekday_not_fri_n", "monday_day", "weekday_not_mon_day"]

/-- `FIXED_HOLIDAYS`: month number to fixed holiday day-numbers. -/
def FIXED_HOLIDAYS : List (Int × List Int) :=
  [(1, [1]), (4, [25]), (5, [1]), (6, [10]), (8, [15]), (10, [5]), (11, [1]), (12, [1, 8, 25])]

/-- `MOVABLE_HOLIDAY_OFFSETS.values()`: day offsets relative to Easter
(carnival, good friday, easter, corpus christi). -/
def MOVABLE_HOLIDAY_OFFSETS : List Int := [-47, -2, 0, 60]

/-! ## Holiday computation (`utils.py`) -/

/-- `utils.easter_date`: anonymous Gregorian computus, returned as a day
count (`datetime(year, month, day)` of the computed month/day).  Python `//`
and `%` on the nonnegative intermediate values coincide with
`Int.ediv`/`Int.emod`. -/
def easterDate (year : Int) : Date :=
  let a := year % 19
  let b := year / 100
  let c := year % 100
  let d := (19 * a + b - b / 4 - ((b - (b + 8) / 25 + 1) / 3) + 15) % 30
  let e := (32 + 2 * (b % 4) + 2 * (c / 4) - d - (c % 4)) % 7
  let f := d + e - 7 * ((a + 11 * d + 22 * e) / 451) + 114
  daysFromCivil year (f / 31) (f % 31 + 1)

/-- `utils.compute_holidays`: fixed holidays of the month plus movable
holidays (Easter plus offset) whose `.month`/`.year` match.  The Python
function returns `sorted(set(...))`; only membership matters to the claims,
and `dedup` preserves it. -/
def computeHolidays (year : Int) (month : Int) : List Int :=
  let easter := easterDate year
  let fixed := (FIXED_HOLIDAYS.lookup month).getD []
  let autoDays := MOVABLE_HOLIDAY_OFFSETS.foldl
    (fun acc off =>
      let dt := easter + off
      if monthOf dt = month ∧ yearOf dt = year then acc ++ [dayOf dt] else acc)
    fixed
  autoDays.dedup

/-! ## Window and shift builders (`scheduler_builders.py`) -/

/-- A holiday specification entry: Python allows day-of-month integers and
`date` objects in the `holidays` list. -/
inductive HolEntry where
  | ofInt (n : Int)
  | ofDate (d : Date)
  deriving DecidableEq, Repr

/-- Set insertion (`set.add`) on the list model of a Python set. -/
def insertDate (acc : List Date) (d : Date) : List Date :=
  if d ∈ acc then acc else acc ++ [d]

/-- All days from `cur` through `last` inclusive (the
`while current_day <= last_sunday` loop). -/
def dateRange (cur last : Date) : List Date :=
  (List.range (last + 1 - cur).toNat).map (fun i => cur + i)

/-- `scheduler_builders.setup_holidays_and_days` (the pure builder): the
initial holiday set from the explicit argument and the ISO-week-widened day
window (first Monday on/before day 1 through last Sunday on/after the last
day of the month).  The final Python `sorted(set(days))` normalization is the
identity here (the day loop emits strictly increasing dates). -/
def setupHolidaysAndDays (year month : Int) (holidays : Option (List HolEntry)) :
    List Date × List Date :=
  let hols := holidays.getD []
  let holidaySet := hols.foldl
    (fun acc h =>
      match h with
      | .ofInt n =>
        match mkDate? year month n with
        | some d => insertDate acc d
        | none => acc
      | .ofDate d => insertDate acc d)
    []
  let firstDay : Date := daysFromCivil year month 1
  let lastDay : Date := daysFromCivil year month (monthLength year month)
  let firstMonday := firstDay - weekdayOf firstDay
  let lastSunday := lastDay + (6 - weekdayOf lastDay)
  (holidaySet, dateRange firstMonday lastSunday)

/-- One shift instance as built by `create_shifts`: absolute start/end are
whole hours since the epoch (`datetime.combine(day, time()) +
timedelta(hours=h)` is hour `24 * day + h`). -/
structure Shift where
  type : String
  start : Int
  stop : Int
  dur : Int
  night : Bool
  day : Date
  deriving DecidableEq, Repr

/-- `scheduler_builders.create_shifts`: one shift per (day, shift type); the
stable integer index of a shift is its position in this list. -/
def createShifts (days : List Date) : List Shift :=
  days.flatMap (fun day =>
    SHIFTS.map (fun cfg =>
      { type := cfg.1
        start := 24 * day + cfg.2.startHour
        stop := 24 * day + cfg.2.endHour
        dur := cfg.2.dur
        night := cfg.2.night
        day := day }))

/-- `dict.setdefault(d, []).append(s)` on an insertion-ordered association
list keyed by day. -/
def insertByDay (acc : List (Date × List Nat)) (d : Date) (s : Nat) : List (Date × List Nat) :=
  match acc with
  | [] => [(d, [s])]
  | (d', ss) :: rest =>
    if d' = d then (d', ss ++ [s]) :: rest else (d', ss) :: insertByDay rest d s

/-- `scheduler_builders.group_shifts_by_day`. -/
def groupShiftsByDay (shifts : List Shift) : List (Date × List Nat) :=
  shifts.enum.foldl (fun acc p => insertByDay acc p.2.day p.1) []

/-- Bucket of a given day inside `groupShiftsByDay` (dict lookup). -/
def lookupDay (g : List (Date × List Nat)) (d : Date) : Option (List Nat) :=
  match g with
  | [] => none
  | (d', ss) :: rest => if d' = d then some ss else lookupDay rest d

/-! ## Engine-level holiday auto-extension (`scheduling_engine._setup_holidays_and_days`) -/

/-- `should_auto_extend`: `holidays is None or (isinstance(holidays, list) and
(not holidays or all(isinstance(h, int) for h in holidays)))`. -/
def shouldAutoExtend (holidays : Option (List HolEntry)) : Bool :=
  match holidays with
  | none => true
  | some l =>
    l.isEmpty || l.all (fun h => match h with | .ofInt _ => true | .ofDate _ => false)

/-- `{(d.year, d.month) for d in days}` as an insertion-ordered set. -/
def monthsInWindow (days : List Date) : List (Int × Int) :=
  days.foldl
    (fun acc d => if (yearOf d, monthOf d) ∈ acc then acc else acc ++ [(yearOf d, monthOf d)]) []

/-- `scheduling_engine._setup_holidays_and_days`: the pure builder followed by
the auto-extension of the holiday set to every (year, month) of the window
(guarded by `should_auto_extend`); `date(y, m, hd)` raising `ValueError` is
skipped. -/
def setupHolidaysAndDaysEngine (year month : Int)
    (holidays : Option (List HolEntry)) : List Date × List Date :=
  let p := setupHolidaysAndDays year month holidays
  let days := p.2
  let holidaySet :=
    if shouldAutoExtend holidays then
      (monthsInWindow days).foldl
        (fun acc ym =>
          (computeHolidays ym.1 ym.2).foldl
            (fun acc hd =>
              match mkDate? ym.1 ym.2 hd with
              | some d => insertDate acc d
              | none => acc)
            acc)
        p.1
    else p.1
  (holidaySet, days)

/-! ## Workers and the constraint model (`model_constraints.py`) -/

/-- A worker record (the fields the constraint model reads). -/
structure Worker where
  name : String
  canNight : Bool
  weeklyLoad : Int
  deriving DecidableEq, Repr

/-- A decision variable `assigned[w][s]`, identified by (worker, shift). -/
abbrev Var := Nat × Nat

/-- One CP-SAT constraint as emitted by the embedded builders. -/
inductive Cons where
  | exactlyOne (vars : List Var)
  | sumLe (vars : List Var) (bound : Int)
  | sumGe (vars : List Var) (bound : Int)
  | fixVar (v : Var) (val : Nat)
  | orNot (v1 v2 : Var)
  deriving DecidableEq, Repr

/-- Truth of a constraint under a candidate boolean assignment. -/
def evalCons (a : Nat → Nat → Bool) : Cons → Bool
  | .exactlyOne vars => vars.countP (fun v => a v.1 v.2) == 1
  | .sumLe vars b => decide ((vars.countP (fun v => a v.1 v.2) : Int) ≤ b)
  | .sumGe vars b => decide (b ≤ (vars.countP (fun v => a v.1 v.2) : Int))
  | .fixVar v val => (if a v.1 v.2 then 1 else 0) == val
  | .orNot v1 v2 => !a v1.1 v1.2 || !a v2.1 v2.2

/-- Default shift used only for out-of-range index accesses (never reached
for the index ranges the builders iterate over). -/
def dummyShift : Shift := ⟨"", 0, 0, 0, false, 0⟩

/-- Attribute accessor `shifts[s]`. -/
def shiftAt (shifts : List Shift) (s : Nat) : Shift :=
  shifts.getD s dummyShift

/-- Worker accessor `workers[w]`. -/
def workerAt (workers : List Worker) (w : Nat) : Worker :=
  workers.getD w ⟨"", true, 0⟩

/-- `model_constraints.add_basic_constraints`: coverage (each shift exactly
one worker), at most one shift per worker per day, and night-shift exclusion
for workers with `can_night == False`. -/
def addBasicConstraints (numWorkers numShifts : Nat)
    (shiftsByDay : List (Date × List Nat)) (workers : List Worker)
    (shifts : List Shift) : List Cons :=
  ((List.range numShifts).map fun s =>
    Cons.exactlyOne ((List.range numWorkers).map fun w => (w, s)))
  ++ ((List.range numWorkers).flatMap fun w =>
        shiftsByDay.map fun p => Cons.sumLe (p.2.map fun s => (w, s)) 1)
  ++ ((List.range numWorkers).flatMap fun w =>
        if (workerAt workers w).canNight then []
        else (List.range numShifts).filterMap fun s =>
          if (shiftAt shifts s).night then some (Cons.fixVar (w, s) 0) else none)

/-! ## 24-hour rest constraints: exhaustive and sweep builders
(`logic_g4._add_24h_interval_constraints` and
`model_constraints.add_24h_interval_constraints`) -/

/-- `MAX_CHECK_HOURS` of the optimized builder. -/
def MAX_CHECK_HOURS : Int := 48

/-- The shared pair test of both 24h-rest builders: overlap, or an end-to-start
gap strictly below `MIN_REST_HOURS` (in either direction). -/
def pairForbidden (si sj : Shift) : Bool :=
  if max si.start sj.start < min si.stop sj.stop then true
  else if si.stop ≤ sj.start then decide (sj.start - si.stop < MIN_REST_HOURS)
  else if sj.stop ≤ si.start then decide (si.start - sj.stop < MIN_REST_HOURS)
  else false

/-- `logic_g4._add_24h_interval_constraints`: the exhaustive all-pairs
builder.  Per worker the same index pairs are forbidden, so the pair list is
built once; `(i, j)` ranges over `i < j < num_shifts`. -/
def allPairsForbidden (shifts : List Shift) : List (Nat × Nat) :=
  (List.range shifts.length).flatMap fun i =>
    ((List.range shifts.length).filter (fun j => i < j)).filterMap fun j =>
      if pairForbidden (shiftAt shifts i) (shiftAt shifts j) then some (i, j) else none

/-- `sorted(range(num_shifts), key=lambda s: shifts[s]["start"])`. -/
def sortedIndices (shifts : List Shift) : List Nat :=
  (List.range shifts.length).mergeSort
    (fun a b => (shiftAt shifts a).start ≤ (shiftAt shifts b).start)

/-- Inner loop of the optimized builder over the later sorted indices, with
the `break` once the start-to-end gap reaches `MAX_CHECK_HOURS`. -/
def sweepInner (shifts : List Shift) (i : Nat) : List Nat → List (Nat × Nat)
  | [] => []
  | j :: rest =>
    if MAX_CHECK_HOURS ≤ (shiftAt shifts j).start - (shiftAt shifts i).stop then []
    else
      (if pairForbidden (shiftAt shifts i) (shiftAt shifts j) then [(i, j)] else []) ++
        sweepInner shifts i rest

/-- Outer loop of the optimized builder over the sorted index list. -/
def sweepOuter (shifts : List Shift) : List Nat → List (Nat × Nat)
  | [] => []
  | i :: rest => sweepInner shifts i rest ++ sweepOuter shifts rest

/-- `model_constraints.add_24h_interval_constraints`: the sorted sweep
builder (again per worker the same pairs, so the pair list is built once). -/
def sweepForbidden (shifts : List Shift) : List (Nat × Nat) :=
  sweepOuter shifts (sortedIndices shifts)

/-! ## History (`history_view.py`, `scheduling_engine.update_history`)

The persisted history is `history[worker_name]["YYYY-MM"] -> list of
assignment dicts`.  Worker names stay strings; the month key `"YYYY-MM"`
is embedded as the (year, month) pair it prints. -/

/-- An assignment record (`{worker, date, shift, dur}`). -/
structure Assignment where
  worker : String
  date : Date
  shift : String
  dur : Int
  deriving DecidableEq, Repr

/-- The `"YYYY-MM"` month key of a date (`day.strftime('%Y-%m')`). -/
abbrev MonthKey := Int × Int

/-- `day.strftime('%Y-%m')`. -/
def monthKeyOf (d : Date) : MonthKey := (yearOf d, monthOf d)

/-- `history`: worker name to (month key to assignment list), insertion
ordered like Python dicts. -/
abbrev History := List (String × List (MonthKey × List Assignment))

/-- `d.get(k)` on an insertion-ordered dict. -/
def lookupA {κ α : Type} [DecidableEq κ] (l : List (κ × α)) (k : κ) : Option α :=
  match l with
  | [] => none
  | (k', v) :: rest => if k' = k then some v else lookupA rest k

/-- `d[k] = v` on an insertion-ordered dict: replace in place, or append a
new key at the end. -/
def setA {κ α : Type} [DecidableEq κ] (l : List (κ × α)) (k : κ) (v : α) : List (κ × α) :=
  match l with
  | [] => [(k, v)]
  | (k', v') :: rest => if k' = k then (k, v) :: rest else (k', v') :: setA rest k v

/-- `history.get(worker, {})`. -/
def histMonths (h : History) (w : String) : List (MonthKey × List Assignment) :=
  (lookupA h w).getD []

/-- `history.get(worker, {}).get(month_key, [])`. -/
def histCell (h : History) (w : String) (k : MonthKey) : List Assignment :=
  (lookupA (histMonths h w) k).getD []

/-- `HistoryView.fixed_shift_for`: the shift type of the first history entry
of this worker's month list whose date matches `day`. -/
def fixedShiftFor (h : History) (workerName : String) (day : Date) : Option String :=
  let rec go : List Assignment → Option String
    | [] => none
    | a :: rest => if a.date = day then some a.shift else go rest
  go (histCell h workerName (monthKeyOf day))

/-- The per-assignment replacement step of `update_history`:
`history[w][m] = [a for a in history[w][m] if a['date'] != ass['date']]`
followed by `append(ass)`. -/
def applyAss (cell : List Assignment) (a : Assignment) : List Assignment :=
  (cell.filter (fun b => b.date ≠ a.date)) ++ [a]

/-- Writing one assignment into the history (ensuring the worker and month
entries exist, then replacing the month list). -/
def applyOne (h : History) (a : Assignment) : History :=
  setA h a.worker (setA (histMonths h a.worker) (monthKeyOf a.date)
    (applyAss (histCell h a.worker (monthKeyOf a.date)) a))

/-- The month keys of the batch in order of first occurrence (the insertion
order of `ass_by_month`). -/
def monthKeysInOrder (assignments : List Assignment) : List MonthKey :=
  assignments.foldl
    (fun acc a => if monthKeyOf a.date ∈ acc then acc else acc ++ [monthKeyOf a.date]) []

/-- The order in which `update_history` processes the batch: grouped by month
key (in first-occurrence order), original order preserved within a month. -/
def regroupByMonth (assignments : List Assignment) : List Assignment :=
  (monthKeysInOrder assignments).flatMap
    (fun k => assignments.filter (fun a => monthKeyOf a.date = k))

/-- `scheduling_engine.update_history`. -/
def updateHistory (assignments : List Assignment) (h : History) : History :=
  (regroupByMonth assignments).foldl applyOne h

/-! ## Cross-window rest constraints
(`model_constraints.add_cross_week_interval_constraints`) -/

/-- `add_cross_week_interval_constraints`: the list of `(worker, shift)`
decision variables forced to 0 because of a historical shift on the one or
two days before the window.  `model.Add(assigned[w][s] == 0)` is recorded as
the pair `(w, s)`. -/
def crossWeekBlocked (shifts : List Shift) (workers : List Worker)
    (days : List Date) (history : History) : List Var :=
  if days.isEmpty || history.isEmpty then []
  else
    let firstDay : Date := days.headD 0
    let earlyWindowCutoff : Int := 24 * (firstDay + 2)
    let daysToCheck : List Date := [firstDay - 1, firstDay - 2]
    (List.range workers.length).flatMap fun wIdx =>
      daysToCheck.flatMap fun histDay =>
        match fixedShiftFor history (workerAt workers wIdx).name histDay with
        | none => []
        | some histShiftType =>
          match SHIFTS.lookup histShiftType with
          | none => []
          | some histConfig =>
            let histEnd : Int := 24 * histDay + histConfig.endHour
            (List.range shifts.length).filterMap fun sIdx =>
              let shiftStart := (shiftAt shifts sIdx).start
              if earlyWindowCutoff ≤ shiftStart then none
              else if shiftStart ≤ histEnd then some (wIdx, sIdx)
              else if shiftStart - histEnd < MIN_REST_HOURS then some (wIdx, sIdx)
              else none

/-! ## Consecutive-night-shift avoidance
(`model_objectives.build_consecutive_night_shift_avoidance_cost`) -/

/-- `night_shift_indices`. -/
def nightShiftIndices (shifts : List Shift) : List Nat :=
  (List.range shifts.length).filter (fun i => (shiftAt shifts i).night)

/-- All ordered pairs `(l[i], l[j])` with `i < j` (`for idx_i, i in
enumerate(l): for j in l[idx_i+1:]`). -/
def pairsAfter {α : Type} : List α → List (α × α)
  | [] => []
  | x :: rest => rest.map (fun y => (x, y)) ++ pairsAfter rest

/-- The `(w, i, j)` triples for which
`build_consecutive_night_shift_avoidance_cost` creates a penalty variable:
night-shift pairs on consecutive calendar days whose start times are less
than 96 hours apart. -/
def consecNightTerms (shifts : List Shift) (numWorkers : Nat) : List (Nat × Nat × Nat) :=
  (List.range numWorkers).flatMap fun w =>
    (pairsAfter (nightShiftIndices shifts)).filterMap fun p =>
      let si := shiftAt shifts p.1
      let sj := shiftAt shifts p.2
      if (sj.day - si.day).natAbs ≠ 1 then none
      else if ((sj.start - si.start).natAbs : Int) < NIGHT_SHIFT_CONSECUTIVE_MIN_HOURS then
        some (w, p.1, p.2)
      else none

/-! ## Equity stat index lists (`scheduler_builders.define_stat_indices`) -/

section StatIndices

variable (shifts : List Shift) (holidaySet : List Date)

/-- `is_saturday(s)`. -/
def isSaturdayIdx (s : Nat) : Bool := decide (weekdayOf (shiftAt shifts s).day = 5)

/-- `is_sunday(s)`. -/
def isSundayIdx (s : Nat) : Bool := decide (weekdayOf (shiftAt shifts s).day = 6)

/-- `is_holiday(s)`. -/
def isHolidayIdx (s : Nat) : Bool := decide ((shiftAt shifts s).day ∈ holidaySet)

/-- `is_weekday_holiday(s)`. -/
def isWeekdayHolidayIdx (s : Nat) : Bool :=
  isHolidayIdx shifts holidaySet s && decide (weekdayOf (shiftAt shifts s).day < 5)

/-- `is_saturday_holiday(s)`. -/
def isSaturdayHolidayIdx (s : Nat) : Bool :=
  isHolidayIdx shifts holidaySet s && isSaturdayIdx shifts s

/-- `is_night(s)`. -/
def isNightIdx (s : Nat) : Bool := (shiftAt shifts s).night

/-- `is_m1(s)`. -/
def isM1Idx (s : Nat) : Bool := decide ((shiftAt shifts s).type = "M1")

/-- `is_m2(s)`. -/
def isM2Idx (s : Nat) : Bool := decide ((shiftAt shifts s).type = "M2")

/-- `is_day_shift(s)`. -/
def isDayShiftIdx (s : Nat) : Bool := isM1Idx shifts s || isM2Idx shifts s

/-- `is_monday(s)`. -/
def isMondayIdx (s : Nat) : Bool := decide (weekdayOf (shiftAt shifts s).day = 0)

/-- `is_friday(s)`. -/
def isFridayIdx (s : Nat) : Bool := decide (weekdayOf (shiftAt shifts s).day = 4)

/-- `is_weekday(s)`. -/
def isWeekdayIdx (s : Nat) : Bool := decide (weekdayOf (shiftAt shifts s).day < 5)

/-- `sat_n`: Saturday night (Saturday holidays included). -/
def satNIndices : List Nat :=
  (List.range shifts.length).filter fun s => isSaturdayIdx shifts s && isNightIdx shifts s

/-- `sun_holiday_m2`: M2 on a Sunday, weekday holiday or Saturday holiday. -/
def sunHolidayM2Indices : List Nat :=
  (List.range shifts.length).filter fun s =>
    isM2Idx shifts s &&
      (isSundayIdx shifts s || isWeekdayHolidayIdx shifts holidaySet s ||
        isSaturdayHolidayIdx shifts holidaySet s)

/-- `sun_holiday_m1`: M1 on a Sunday, weekday holiday or Saturday holiday. -/
def sunHolidayM1Indices : List Nat :=
  (List.range shifts.length).filter fun s =>
    isM1Idx shifts s &&
      (isSundayIdx shifts s || isWeekdayHolidayIdx shifts holidaySet s ||
        isSaturdayHolidayIdx shifts holidaySet s)

/-- `sun_holiday_n`: night on a Sunday or weekday holiday (Saturday holidays
excluded: those count in `sat_n`). -/
def sunHolidayNIndices : List Nat :=
  (List.range shifts.length).filter fun s =>
    isNightIdx shifts s &&
      (isSundayIdx shifts s || isWeekdayHolidayIdx shifts holidaySet s)

/-- `sat_m2`: non-holiday Saturday M2. -/
def satM2Indices : List Nat :=
  (List.range shifts.length).filter fun s =>
    isSaturdayIdx shifts s && isM2Idx shifts s && !isHolidayIdx shifts holidaySet s

/-- `sat_m1`: non-holiday Saturday M1. -/
def satM1Indices : List Nat :=
  (List.range shifts.length).filter fun s =>
    isSaturdayIdx shifts s && isM1Idx shifts s && !isHolidayIdx shifts holidaySet s

/-- `fri_night`: non-holiday Friday night. -/
def friNightIndices : List Nat :=
  (List.range shifts.length).filter fun s =>
    isFridayIdx shifts s && isNightIdx shifts s && !isHolidayIdx shifts holidaySet s

/-- `weekday_not_fri_n`: non-holiday Monday-Thursday night. -/
def weekdayNotFriNIndices : List Nat :=
  (List.range shifts.length).filter fun s =>
    isWeekdayIdx shifts s && !isFridayIdx shifts s && isNightIdx shifts s &&
      !isHolidayIdx shifts holidaySet s

/-- `monday_day`: non-holiday Monday M1 or M2. -/
def mondayDayIndices : List Nat :=
  (List.range shifts.length).filter fun s =>
    isMondayIdx shifts s && isDayShiftIdx shifts s && !isHolidayIdx shifts holidaySet s

/-- `weekday_not_mon_day`: non-holiday Tuesday-Friday M1 or M2. -/
def weekdayNotMonDayIndices : List Nat :=
  (List.range shifts.length).filter fun s =>
    isWeekdayIdx shifts s && !isMondayIdx shifts s && isDayShiftIdx shifts s &&
      !isHolidayIdx shifts holidaySet s

/-- The ten index lists of `define_stat_indices` that correspond to the ten
bucket names of `EQUITY_STATS`, in the `EQUITY_STATS` order. -/
def equityStatIndexLists : List (List Nat) :=
  [sunHolidayM2Indices shifts holidaySet,
   satNIndices shifts,
   satM2Indices shifts holidaySet,
   sunHolidayNIndices shifts holidaySet,
   sunHolidayM1Indices shifts holidaySet,
   satM1Indices shifts holidaySet,
   friNightIndices shifts holidaySet,
   weekdayNotFriNIndices shifts holidaySet,
   mondayDayIndices shifts holidaySet,
   weekdayNotMonDayIndices shifts holidaySet]

end StatIndices

/-! ## The staged solve driver (`schedule_pipeline.solve_and_extract_results`)

The CP-SAT solver is abstracted as an oracle mapping (the equality
constraints fixing earlier stage objectives, the stage index) to an outcome;
wall-clock readings are an abstract function of the stage index; the
per-stage `max_time_in_seconds` budgets influence behavior only through the
oracle. -/

/-- A candidate valuation of the `assigned` variables, as read back through
`solver.Value`. -/
abbrev Valuation := Nat → Nat → Bool

/-- Outcome of one stage solve: a feasible/optimal solution together with
the value of the stage objective, or anything else
(INFEASIBLE/UNKNOWN/timeout). -/
inductive StageOutcome where
  | sol (val : Valuation) (objVal : Int)
  | fail

/-- `SOLVER_TIMEOUT_SECONDS`. -/
def SOLVER_TIMEOUT_SECONDS : ℚ := 30

/-- The early stop `remaining < 2.0 and idx > 0` with
`remaining = max(0.1, SOLVER_TIMEOUT_SECONDS - elapsed)`. -/
def earlyStop (elapsed : Nat → ℚ) (idx : Nat) : Bool :=
  decide (max (1/10 : ℚ) (SOLVER_TIMEOUT_SECONDS - elapsed idx) < 2 ∧ 0 < idx)

/-- The staged loop.  `fixes` is both the list of `model.Add(obj_var == v)`
equality constraints accumulated so far and the recorded `stage_values`
(they carry the same (name, value) data).  Returns the solver of the last
successful stage (None if stage 0 failed) and the recorded stage values. -/
def runStages (oracle : List (String × Int) → Nat → StageOutcome) (elapsed : Nat → ℚ) :
    List String → Nat → List (String × Int) → Option Valuation →
      Option Valuation × List (String × Int)
  | [], _, fixes, best => (best, fixes)
  | name :: restNames, idx, fixes, best =>
    if earlyStop elapsed idx then (best, fixes)
    else
      match oracle fixes idx with
      | .fail => if idx = 0 then (none, fixes) else (best, fixes)
      | .sol val v => runStages oracle elapsed restNames (idx + 1) (fixes ++ [(name, v)]) (some val)

/-- Schedule extraction: `date -> shift type -> worker name` for days of the
selected month (dict writes modelled by `setA`). -/
def extractSchedule (days : List Date) (month : Int) (shiftsByDay : List (Date × List Nat))
    (shifts : List Shift) (workers : List Worker) (val : Valuation) :
    List (Date × List (String × String)) :=
  (days.filter (fun d => monthOf d = month)).map fun day =>
    (day,
      SHIFT_TYPES.foldl
        (fun acc st =>
          ((lookupDay shiftsByDay day).getD []).foldl
            (fun acc s =>
              if (shiftAt shifts s).type = st then
                match (List.range workers.length).find? (fun w => val w s) with
                | some w => setA acc st (workerAt workers w).name
                | none => acc
              else acc)
            acc)
        [])

/-- Weekly summary extraction: per ISO week and worker, hours plus derived
overtime/undertime.  An ISO week is its key paired with its `"shifts"` index
list (the only field this function reads). -/
def extractWeekly (isoWeeks : List ((Int × Int) × List Nat)) (shifts : List Shift)
    (workers : List Worker) (val : Valuation) :
    List ((Int × Int) × List (String × Int × Int × Int)) :=
  isoWeeks.map fun wk =>
    (wk.1,
      (List.range workers.length).map fun w =>
        let hours := wk.2.foldl
          (fun acc s => acc + (if val w s then (shiftAt shifts s).dur else 0)) 0
        let load := (workerAt workers w).weeklyLoad
        ((workerAt workers w).name, hours, max 0 (hours - load), max 0 (load - hours)))

/-- Assignment list extraction for the whole solved window. -/
def extractAssignments (numShifts : Nat) (shifts : List Shift) (workers : List Worker)
    (val : Valuation) : List Assignment :=
  (List.range numShifts).flatMap fun s =>
    (List.range workers.length).filterMap fun w =>
      if val w s then
        some ⟨(workerAt workers w).name, (shiftAt shifts s).day,
          (shiftAt shifts s).type, (shiftAt shifts s).dur⟩
      else none

/-- The solver-facing result of `solve_and_extract_results` (the pieces the
claims are about: the three extracted outputs, the error recorded in stats,
and the recorded stage values). -/
structure SolveResult where
  schedule : List (Date × List (String × String))
  weekly : List ((Int × Int) × List (String × Int × Int × Int))
  assignments : List Assignment
  statsError : Option String
  stageValues : List (String × Int)
  deriving DecidableEq

/-- `solve_and_extract_results` in lexicographic mode: run the staged loop;
if no stage produced a solver, return the empty outputs with the error
recorded in stats; otherwise extract schedule, weekly summary and
assignments from the kept solver's valuation. -/
def solveAndExtractStaged (oracle : List (String × Int) → Nat → StageOutcome)
    (elapsed : Nat → ℚ) (stageNames : List String) (shifts : List Shift)
    (days : List Date) (month : Int) (shiftsByDay : List (Date × List Nat))
    (isoWeeks : List ((Int × Int) × List Nat)) (workers : List Worker) : SolveResult :=
  let r := runStages oracle elapsed stageNames 0 [] none
  match r.1 with
  | none =>
    { schedule := [], weekly := [], assignments := []
      statsError := some "No feasible solution found in staged optimization"
      stageValues := r.2 }
  | some val =>
    { schedule := extractSchedule days month shiftsByDay shifts workers val
      weekly := extractWeekly isoWeeks shifts workers val
      assignments := extractAssignments shifts.length shifts workers val
      statsError := none
      stageValues := r.2 }

/-- The (stage name, found value) pairs of the first `k` stages: the equality
constraints `model.Add(obj_var == v)` accumulated before stage `k` runs, and
equally the recorded `stage_values`. -/
def fixesOf (stageNames : List String) (vals : Nat → Int) (k : Nat) : List (String × Int) :=
  (List.range k).map (fun m => (stageNames.getD m "", vals m))

/-! ## Infeasibility diagnostics (`constraint_diagnostics.py`) -/

/-- The hard-constraint groups handled by the diagnostics engine.  The
groups `coverage` and `unavailability` form `_build_base_model` and are part
of every diagnostic solve; `crossWindowRest` exists in the scheduling model
(`add_cross_week_interval_constraints`) but is named here only to express
that the diagnostics never toggles it. -/
inductive DiagGroup where
  | coverage
  | unavailability
  | onePerDay
  | nightRestrictions
  | restInterval
  | weeklyParticipation
  | crossWindowRest
  deriving DecidableEq, Repr

/-- All hard-constraint groups a full diagnostic model would contain. -/
def fullDiagGroups : List DiagGroup :=
  [.coverage, .unavailability, .onePerDay, .nightRestrictions, .restInterval,
   .weeklyParticipation]

/-- `_build_model_without_weekly_participation`. -/
def modelWithoutWeeklyParticipation : List DiagGroup :=
  [.coverage, .unavailability, .onePerDay, .nightRestrictions, .restInterval]

/-- `_build_model_without_rest_interval`. -/
def modelWithoutRestInterval : List DiagGroup :=
  [.coverage, .unavailability, .onePerDay, .nightRestrictions, .weeklyParticipation]

/-- `_build_model_without_one_per_day`. -/
def modelWithoutOnePerDay : List DiagGroup :=
  [.coverage, .unavailability, .nightRestrictions, .restInterval, .weeklyParticipation]

/-- `_build_model_without_night_restrictions`. -/
def modelWithoutNightRestrictions : List DiagGroup :=
  [.coverage, .unavailability, .onePerDay, .restInterval, .weeklyParticipation]

/-- The `constraint_groups` list of `run_relaxation_analysis`: name paired
with the constraint-group set of the model its builder constructs. -/
def relaxationConstraintGroups : List (String × List DiagGroup) :=
  [("weekly_participation", modelWithoutWeeklyParticipation),
   ("24h_rest_interval", modelWithoutRestInterval),
   ("one_shift_per_day", modelWithoutOnePerDay),
   ("night_restrictions", modelWithoutNightRestrictions)]

/-- The group each tested variant omits, keyed by its reported name. -/
def relaxationRemoved : List (String × DiagGroup) :=
  [("weekly_participation", .weeklyParticipation),
   ("24h_rest_interval", .restInterval),
   ("one_shift_per_day", .onePerDay),
   ("night_restrictions", .nightRestrictions)]

/-- `run_relaxation_analysis`: solve each variant with a short budget and
record whether it is feasible.  Feasibility of a model is abstracted as an
oracle over its constraint-group set. -/
def runRelaxationAnalysis (feasible : List DiagGroup → Bool) : List (String × Bool) :=
  relaxationConstraintGroups.map (fun g => (g.1, feasible g.2))

/-- The groups reported in the summary line
`"Model becomes feasible when relaxing: ..."`. -/
def relaxationSummaryNames (results : List (String × Bool)) : List String :=
  (results.filter (fun p => p.2)).map (fun p => p.1)

/-! ## The missing merge helper (`scheduling_engine` / `schedule_pipeline`) -/

/-- The module-level function names defined in `schedule_pipeline.py`. -/
def schedulePipelineModuleAttrs : List String :=
  ["solve_and_extract_results", "merge_history_into_results",
   "_run_infeasibility_diagnostics"]

/-- The attribute `scheduling_engine._merge_excluded_weeks_into_results`
resolves on the `schedule_pipeline` module before `generate_schedule`
returns. -/
def mergeCallAttr : String := "merge_excluded_weeks_into_results"

/-- The final merge step of `scheduling_engine.generate_schedule`: Python
attribute resolution of `_sp.merge_excluded_weeks_into_results` raises
`AttributeError` when the name is not defined by the module. -/
def generateScheduleMergeStep : Except String Unit :=
  if mergeCallAttr ∈ schedulePipelineModuleAttrs then Except.ok ()
  else Except.error "AttributeError"

/-! ## General lemmas -/

theorem shiftAt_mem {shifts : List Shift} {i : Nat} (h : i < shifts.length) :
    shiftAt shifts i ∈ shifts := by
  unfold shiftAt
  rw [List.getD_eq_getElem _ _ h]
  exact List.getElem_mem h

theorem pairsAfter_mem {α : Type} {l : List α} {a b : α}
    (h : (a, b) ∈ pairsAfter l) : a ∈ l ∧ b ∈ l := by
  induction l with
  | nil => simp [pairsAfter] at h
  | cons x rest ih =>
    simp only [pairsAfter, List.mem_append, List.mem_map] at h
    rcases h with ⟨y, hy, heq⟩ | h
    · obtain ⟨rfl, rfl⟩ : x = a ∧ y = b := by
        constructor <;> [exact (Prod.mk.injEq _ _ _ _ ▸ heq).1; exact (Prod.mk.injEq _ _ _ _ ▸ heq).2]
      exact ⟨List.mem_cons_self _ _, List.mem_cons_of_mem _ hy⟩
    · rcases ih h with ⟨ha, hb⟩
      exact ⟨List.mem_cons_of_mem _ ha, List.mem_cons_of_mem _ hb⟩

theorem mem_nightShiftIndices {shifts : List Shift} {i : Nat} :
    i ∈ nightShiftIndices shifts ↔ i < shifts.length ∧ (shiftAt shifts i).night = true := by
  simp [nightShiftIndices, List.mem_filter, List.mem_range]

theorem createShifts_night_start {days : List Date} {sh : Shift}
    (hmem : sh ∈ createShifts days) (hn : sh.night = true) :
    sh.start = 24 * sh.day + 20 := by
  rw [createShifts, List.mem_flatMap] at hmem
  obtain ⟨d, _, hsh⟩ := hmem
  rw [List.mem_map] at hsh
  obtain ⟨cfg, hcfg, rfl⟩ := hsh
  have hc : cfg = ("M1", (⟨8, 20, 12, false⟩ : ShiftConfig)) ∨
      cfg = ("M2", (⟨8, 23, 15, false⟩ : ShiftConfig)) ∨
      cfg = ("N", (⟨20, 32, 12, true⟩ : ShiftConfig)) := by
    simpa [SHIFTS] using hcfg
  rcases hc with rfl | rfl | rfl
  · simp at hn
  · simp at hn
  · rfl

theorem mem_insertDate {acc : List Date} {d x : Date} (h : x ∈ acc) : x ∈ insertDate acc d := by
  unfold insertDate
  split
  · exact h
  · exact List.mem_append_left _ h

theorem self_mem_insertDate (acc : List Date) (d : Date) : d ∈ insertDate acc d := by
  unfold insertDate
  split
  · assumption
  · simp

theorem foldl_mem_mono {α β : Type} {step : List β → α → List β}
    (hmono : ∀ acc x b, b ∈ acc → b ∈ step acc x) (l : List α) :
    ∀ (acc : List β) (b : β), b ∈ acc → b ∈ l.foldl step acc := by
  induction l with
  | nil => intro acc b hb; simpa using hb
  | cons x rest ih => intro acc b hb; exact ih _ _ (hmono _ _ _ hb)

theorem foldl_mem_of_elem {α β : Type} {step : List β → α → List β}
    (hmono : ∀ acc x b, b ∈ acc → b ∈ step acc x) {l : List α} {x : α} (hx : x ∈ l)
    {b : β} (hb : ∀ acc, b ∈ step acc x) : ∀ acc, b ∈ l.foldl step acc := by
  induction l with
  | nil => simp at hx
  | cons y rest ih =>
    intro acc
    rcases List.mem_cons.1 hx with rfl | hx'
    · exact foldl_mem_mono hmono rest _ _ (hb acc)
    · exact ih hx' _

theorem mem_monthsInWindow {days : List Date} {d : Date} (hd : d ∈ days) :
    (yearOf d, monthOf d) ∈ monthsInWindow days := by
  unfold monthsInWindow
  refine foldl_mem_of_elem ?_ hd ?_ []
  · intro acc x b hb
    dsimp only
    split
    · exact hb
    · exact List.mem_append_left _ hb
  · intro acc
    dsimp only
    split
    · assumption
    · simp

theorem two_le_countP {l : List Nat} {i j : Nat} (hij : i ≠ j) (hi : i ∈ l) (hj : j ∈ l)
    {p : Nat → Bool} (hpi : p i = true) (hpj : p j = true) : 2 ≤ l.countP p := by
  induction l with
  | nil => simp at hi
  | cons x rest ih =>
    rw [List.countP_cons]
    rcases List.mem_cons.1 hi with rfl | hi'
    · have hj' : j ∈ rest := by
        rcases List.mem_cons.1 hj with h | h
        · exact absurd h.symm hij
        · exact h
      have : 0 < rest.countP p := List.countP_pos_iff.2 ⟨j, hj', hpj⟩
      rw [if_pos hpi]
      omega
    · rcases List.mem_cons.1 hj with rfl | hj'
      · have : 0 < rest.countP p := List.countP_pos_iff.2 ⟨i, hi', hpi⟩
        rw [if_pos hpj]
        omega
      · have := ih hi' hj'
        omega

theorem lookupDay_insertByDay (acc : List (Date × List Nat)) (d : Date) (s : Nat) (d' : Date) :
    lookupDay (insertByDay acc d s) d' =
      if d' = d then some (((lookupDay acc d).getD []) ++ [s]) else lookupDay acc d' := by
  induction acc with
  | nil =>
    by_cases h : d' = d
    · subst h; simp [insertByDay, lookupDay]
    · have h2 : ¬d = d' := fun hh => h hh.symm
      simp [insertByDay, lookupDay, h, h2]
  | cons p rest ih =>
    obtain ⟨dk, ss⟩ := p
    by_cases hdk : dk = d
    · subst hdk
      by_cases h : d' = dk
      · subst h; simp [insertByDay, lookupDay]
      · have h2 : ¬dk = d' := fun hh => h hh.symm
        simp [insertByDay, lookupDay, h, h2]
    · by_cases h2 : dk = d'
      · have hne : ¬d' = d := fun hh => hdk (h2.trans hh)
        simp [insertByDay, lookupDay, hdk, h2, hne]
      · simp [insertByDay, lookupDay, hdk, h2, ih]

theorem bucket_mem_insert {acc : List (Date × List Nat)} {d : Date} {k : Nat}
    (hk : k ∈ (lookupDay acc d).getD []) (d0 : Date) (s0 : Nat) :
    k ∈ (lookupDay (insertByDay acc d0 s0) d).getD [] := by
  rw [lookupDay_insertByDay]
  by_cases h : d = d0
  · subst h
    rw [if_pos rfl]
    exact List.mem_append_left _ hk
  · rw [if_neg h]
    exact hk

theorem bucket_mem_foldl (l : List (Nat × Shift)) (acc : List (Date × List Nat))
    (d : Date) (k : Nat) (hk : k ∈ (lookupDay acc d).getD []) :
    k ∈ (lookupDay (l.foldl (fun acc p => insertByDay acc p.2.day p.1) acc) d).getD [] := by
  induction l generalizing acc with
  | nil => exact hk
  | cons p rest ih => exact ih _ (bucket_mem_insert hk _ _)

theorem mem_own_bucket (l : List (Nat × Shift)) (acc : List (Date × List Nat))
    {k : Nat} {sh : Shift} (h : (k, sh) ∈ l) :
    k ∈ (lookupDay (l.foldl (fun acc p => insertByDay acc p.2.day p.1) acc) sh.day).getD [] := by
  induction l generalizing acc with
  | nil => simp at h
  | cons p rest ih =>
    rcases List.mem_cons.1 h with rfl | h'
    · refine bucket_mem_foldl rest _ _ _ ?_
      rw [lookupDay_insertByDay, if_pos rfl]
      simp
    · exact ih _ h'

theorem mem_groupShiftsByDay_bucket (shifts : List Shift) (i : Nat) (hi : i < shifts.length) :
    i ∈ (lookupDay (groupShiftsByDay shifts) (shiftAt shifts i).day).getD [] := by
  have hlen : i < shifts.enum.length := by rw [List.enum_length]; exact hi
  have hgetd : shiftAt shifts i = shifts[i] := List.getD_eq_getElem _ _ hi
  have hmem : (i, shifts[i]) ∈ shifts.enum := by
    have := List.getElem_enum shifts i hlen
    exact this ▸ List.getElem_mem hlen
  rw [hgetd]
  exact mem_own_bucket _ _ hmem

theorem lookupDay_eq_some_mem {g : List (Date × List Nat)} {d : Date} {ss : List Nat}
    (h : lookupDay g d = some ss) : (d, ss) ∈ g := by
  induction g with
  | nil => simp [lookupDay] at h
  | cons p rest ih =>
    obtain ⟨dk, ssk⟩ := p
    unfold lookupDay at h
    by_cases hdk : dk = d
    · rw [if_pos hdk] at h
      obtain rfl : ssk = ss := by injection h
      subst hdk
      exact List.mem_cons_self _ _
    · rw [if_neg hdk] at h
      exact List.mem_cons_of_mem _ (ih h)

section AssocLemmas

variable {κ α : Type} [DecidableEq κ]

theorem lookupA_setA (l : List (κ × α)) (k : κ) (v : α) (k' : κ) :
    lookupA (setA l k v) k' = if k' = k then some v else lookupA l k' := by
  induction l with
  | nil =>
    by_cases h : k' = k
    · subst h; simp [setA, lookupA]
    · have h2 : ¬k = k' := fun hh => h hh.symm
      simp [setA, lookupA, h, h2]
  | cons p rest ih =>
    obtain ⟨kk, vv⟩ := p
    by_cases h1 : kk = k
    · subst h1
      by_cases h : k' = kk
      · subst h; simp [setA, lookupA]
      · have h2 : ¬kk = k' := fun hh => h hh.symm
        simp [setA, lookupA, h, h2]
    · by_cases h2 : kk = k'
      · have hne : ¬k' = k := fun hh => h1 (h2.trans hh)
        simp [setA, lookupA, h1, h2, hne]
      · simp [setA, lookupA, h1, h2, ih]

theorem keysA_setA (l : List (κ × α)) (k : κ) (v : α) :
    (setA l k v).map Prod.fst =
      if k ∈ l.map Prod.fst then l.map Prod.fst else l.map Prod.fst ++ [k] := by
  induction l with
  | nil => simp [setA]
  | cons p rest ih =>
    obtain ⟨kk, vv⟩ := p
    by_cases h1 : kk = k
    · subst h1; simp [setA]
    · have h2 : ¬k = kk := fun hh => h1 hh.symm
      simp only [setA, if_neg h1, List.map_cons, List.mem_cons, ih]
      by_cases hm : k ∈ rest.map Prod.fst
      · simp [hm, h2]
      · simp [hm, h2]

theorem lookupA_eq_none_of_not_mem (l : List (κ × α)) (k : κ)
    (h : k ∉ l.map Prod.fst) : lookupA l k = none := by
  induction l with
  | nil => rfl
  | cons p rest ih =>
    obtain ⟨kk, vv⟩ := p
    simp only [List.map_cons, List.mem_cons] at h
    push_neg at h
    unfold lookupA
    rw [if_neg (fun hh => h.1 hh.symm)]
    exact ih h.2

theorem lookupA_mem {l : List (κ × α)} {k : κ} {v : α} (h : lookupA l k = some v) :
    (k, v) ∈ l := by
  induction l with
  | nil => simp [lookupA] at h
  | cons p rest ih =>
    obtain ⟨kk, vv⟩ := p
    unfold lookupA at h
    by_cases hk : kk = k
    · rw [if_pos hk] at h
      obtain rfl : vv = v := by injection h
      subst hk
      exact List.mem_cons_self _ _
    · rw [if_neg hk] at h
      exact List.mem_cons_of_mem _ (ih h)

theorem assoc_ext {l1 l2 : List (κ × α)} (hk : l1.map Prod.fst = l2.map Prod.fst)
    (hnd : (l1.map Prod.fst).Nodup) (hl : ∀ k, lookupA l1 k = lookupA l2 k) :
    l1 = l2 := by
  induction l1 generalizing l2 with
  | nil =>
    cases l2 with
    | nil => rfl
    | cons q t2 => simp at hk
  | cons p t1 ih =>
    obtain ⟨k1, v1⟩ := p
    cases l2 with
    | nil => simp at hk
    | cons q t2 =>
      obtain ⟨k2, v2⟩ := q
      simp only [List.map_cons, List.cons.injEq] at hk
      obtain ⟨rfl, hkt⟩ := hk
      have hv : v1 = v2 := by
        have := hl k1
        simp only [lookupA, if_pos rfl] at this
        injection this
      subst hv
      simp only [List.map_cons, List.nodup_cons] at hnd
      have ht : t1 = t2 := by
        refine ih hkt hnd.2 ?_
        intro k'
        by_cases hk' : k' = k1
        · subst hk'
          rw [lookupA_eq_none_of_not_mem _ _ hnd.1,
            lookupA_eq_none_of_not_mem _ _ (hkt ▸ hnd.1)]
        · have := hl k'
          have hne : ¬k1 = k' := fun hh => hk' hh.symm
          simpa only [lookupA, if_neg hne] using this
      rw [ht]

theorem nodup_keysA_setA {l : List (κ × α)} (hnd : (l.map Prod.fst).Nodup)
    (k : κ) (v : α) : ((setA l k v).map Prod.fst).Nodup := by
  rw [keysA_setA]
  split
  · exact hnd
  · rename_i hnm
    rw [List.nodup_append]
    exact ⟨hnd, List.nodup_singleton _, by simpa using hnm⟩

end AssocLemmas

/-! ### Lemmas about `update_history` -/

theorem histMonths_applyOne (h : History) (x : Assignment) (w : String) :
    histMonths (applyOne h x) w =
      if w = x.worker then
        setA (histMonths h x.worker) (monthKeyOf x.date)
          (applyAss (histCell h x.worker (monthKeyOf x.date)) x)
      else histMonths h w := by
  unfold applyOne histMonths
  rw [lookupA_setA]
  by_cases hw : w = x.worker
  · rw [if_pos hw, if_pos hw]
    rfl
  · rw [if_neg hw, if_neg hw]

theorem histCell_applyOne (h : History) (x : Assignment) (w : String) (k : MonthKey) :
    histCell (applyOne h x) w k =
      if w = x.worker ∧ k = monthKeyOf x.date then applyAss (histCell h w k) x
      else histCell h w k := by
  unfold histCell
  rw [histMonths_applyOne]
  by_cases hw : w = x.worker
  · rw [if_pos hw, lookupA_setA]
    by_cases hk : k = monthKeyOf x.date
    · rw [if_pos hk, if_pos ⟨hw, hk⟩, hw, hk]
      rfl
    · rw [if_neg hk, if_neg (fun hh => hk hh.2), hw]
  · rw [if_neg hw, if_neg (fun hh => hw hh.1)]

theorem histCell_foldl (seq : List Assignment) (h : History) (w : String) (k : MonthKey) :
    histCell (seq.foldl applyOne h) w k =
      (seq.filter (fun a => decide (a.worker = w) && decide (monthKeyOf a.date = k))).foldl
        applyAss (histCell h w k) := by
  induction seq generalizing h with
  | nil => rfl
  | cons x t ih =>
    simp only [List.foldl_cons, List.filter_cons]
    rw [ih]
    by_cases hc : x.worker = w ∧ monthKeyOf x.date = k
    · have hb : (decide (x.worker = w) && decide (monthKeyOf x.date = k)) = true := by
        simp [hc.1, hc.2]
      rw [hb]
      rw [histCell_applyOne, if_pos ⟨hc.1.symm, hc.2.symm⟩]
      simp
    · have hb : (decide (x.worker = w) && decide (monthKeyOf x.date = k)) = false := by
        rcases not_and_or.1 hc with hx | hx <;> simp [hx]
      rw [hb]
      simp only [Bool.false_eq_true, if_false]
      rw [histCell_applyOne, if_neg (fun hh => hc ⟨hh.1.symm, hh.2.symm⟩)]

theorem mem_foldl_applyAss {x : Assignment} (batch : List Assignment) (l : List Assignment)
    (h : x ∈ batch.foldl applyAss l) : x ∈ l ∨ x ∈ batch := by
  induction batch generalizing l with
  | nil => exact Or.inl h
  | cons a t ih =>
    rcases ih _ h with hx | hx
    · unfold applyAss at hx
      rcases List.mem_append.1 hx with hx | hx
      · exact Or.inl (List.mem_filter.1 hx).1
      · simp only [List.mem_singleton] at hx
        exact Or.inr (hx ▸ List.mem_cons_self _ _)
    · exact Or.inr (List.mem_cons_of_mem _ hx)

theorem foldl_applyAss_eq (batch : List Assignment) (l : List Assignment) :
    batch.foldl applyAss l =
      l.filter (fun x => batch.all (fun a => decide (x.date ≠ a.date))) ++
        batch.foldl applyAss [] := by
  induction batch generalizing l with
  | nil => simp
  | cons a t ih =>
    simp only [List.foldl_cons]
    rw [ih (applyAss l a), ih (applyAss [] a)]
    unfold applyAss
    simp only [List.filter_append, List.filter_filter, List.all_cons]
    rw [List.append_assoc]
    congr 1
    apply List.filter_congr
    intro x _
    simp only [Bool.and_comm]

theorem foldl_applyAss_idem (batch : List Assignment) (l : List Assignment) :
    batch.foldl applyAss (batch.foldl applyAss l) = batch.foldl applyAss l := by
  rw [foldl_applyAss_eq batch l, foldl_applyAss_eq batch _]
  congr 1
  rw [List.filter_append, List.filter_filter]
  have h1 : List.filter (fun x => batch.all (fun a => decide (x.date ≠ a.date)) &&
      batch.all (fun a => decide (x.date ≠ a.date))) l =
      List.filter (fun x => batch.all (fun a => decide (x.date ≠ a.date))) l := by
    apply List.filter_congr
    intro x _
    rw [Bool.and_self]
  have h2 : List.filter (fun x => batch.all (fun a => decide (x.date ≠ a.date)))
      (batch.foldl applyAss []) = [] := by
    rw [List.filter_eq_nil_iff]
    intro x hx
    rcases mem_foldl_applyAss batch [] hx with h | h
    · simp at h
    · intro hp
      rw [List.all_eq_true] at hp
      have := hp x h
      simp at this
  rw [h1, h2, List.append_nil]

theorem exists_lookupA_of_mem_keys {κ α : Type} [DecidableEq κ] {l : List (κ × α)} {k : κ}
    (h : k ∈ l.map Prod.fst) : ∃ v, lookupA l k = some v := by
  induction l with
  | nil => simp at h
  | cons p rest ih =>
    obtain ⟨kk, vv⟩ := p
    by_cases hk : kk = k
    · exact ⟨vv, by unfold lookupA; rw [if_pos hk]⟩
    · have : k ∈ rest.map Prod.fst := by
        simp only [List.map_cons, List.mem_cons] at h
        rcases h with h | h
        · exact absurd h.symm hk
        · exact h
      obtain ⟨v, hv⟩ := ih this
      exact ⟨v, by unfold lookupA; rw [if_neg hk]; exact hv⟩

theorem keys_applyOne (h : History) (x : Assignment) :
    (applyOne h x).map Prod.fst =
      if x.worker ∈ h.map Prod.fst then h.map Prod.fst
      else h.map Prod.fst ++ [x.worker] := by
  unfold applyOne
  exact keysA_setA _ _ _

theorem worker_mem_keys_applyOne (h : History) (x : Assignment) :
    x.worker ∈ (applyOne h x).map Prod.fst := by
  rw [keys_applyOne]
  split
  · assumption
  · simp

theorem keys_sub_applyOne (h : History) (x : Assignment) {kk : String}
    (hkk : kk ∈ h.map Prod.fst) : kk ∈ (applyOne h x).map Prod.fst := by
  rw [keys_applyOne]
  split
  · exact hkk
  · exact List.mem_append_left _ hkk

theorem keys_sub_foldl (seq : List Assignment) (h : History) {kk : String}
    (hkk : kk ∈ h.map Prod.fst) : kk ∈ (seq.foldl applyOne h).map Prod.fst := by
  induction seq generalizing h with
  | nil => exact hkk
  | cons x t ih => exact ih _ (keys_sub_applyOne h x hkk)

theorem worker_key_mem_foldl (seq : List Assignment) (h : History) {a : Assignment}
    (ha : a ∈ seq) : a.worker ∈ (seq.foldl applyOne h).map Prod.fst := by
  induction seq generalizing h with
  | nil => simp at ha
  | cons x t ih =>
    rcases List.mem_cons.1 ha with rfl | ha'
    · exact keys_sub_foldl t _ (worker_mem_keys_applyOne h a)
    · exact ih _ ha'

theorem keys_applyOne_of_mem (h : History) (x : Assignment)
    (hm : x.worker ∈ h.map Prod.fst) :
    (applyOne h x).map Prod.fst = h.map Prod.fst := by
  rw [keys_applyOne, if_pos hm]

theorem keys_foldl_stable (seq : List Assignment) (h : History)
    (hall : ∀ a ∈ seq, a.worker ∈ h.map Prod.fst) :
    (seq.foldl applyOne h).map Prod.fst = h.map Prod.fst := by
  induction seq generalizing h with
  | nil => rfl
  | cons x t ih =>
    have h1 := keys_applyOne_of_mem h x (hall x (List.mem_cons_self _ _))
    rw [List.foldl_cons, ih (applyOne h x)
      (fun a ha => h1 ▸ hall a (List.mem_cons_of_mem _ ha)), h1]

theorem monthKeys_mem_applyOne (h : History) (x : Assignment) :
    monthKeyOf x.date ∈ (histMonths (applyOne h x) x.worker).map Prod.fst := by
  rw [histMonths_applyOne, if_pos rfl, keysA_setA]
  split
  · assumption
  · simp

theorem monthKeys_sub_applyOne (h : History) (x : Assignment) (w : String) {kk : MonthKey}
    (hkk : kk ∈ (histMonths h w).map Prod.fst) :
    kk ∈ (histMonths (applyOne h x) w).map Prod.fst := by
  rw [histMonths_applyOne]
  by_cases hw : w = x.worker
  · rw [if_pos hw, keysA_setA]
    rw [hw] at hkk
    split
    · exact hkk
    · exact List.mem_append_left _ hkk
  · rw [if_neg hw]
    exact hkk

theorem monthKeys_sub_foldl (seq : List Assignment) (h : History) (w : String) {kk : MonthKey}
    (hkk : kk ∈ (histMonths h w).map Prod.fst) :
    kk ∈ (histMonths (seq.foldl applyOne h) w).map Prod.fst := by
  induction seq generalizing h with
  | nil => exact hkk
  | cons x t ih => exact ih _ (monthKeys_sub_applyOne h x w hkk)

theorem month_key_mem_foldl (seq : List Assignment) (h : History) {a : Assignment}
    (ha : a ∈ seq) :
    monthKeyOf a.date ∈ (histMonths (seq.foldl applyOne h) a.worker).map Prod.fst := by
  induction seq generalizing h with
  | nil => simp at ha
  | cons x t ih =>
    rcases List.mem_cons.1 ha with rfl | ha'
    · exact monthKeys_sub_foldl t _ _ (monthKeys_mem_applyOne h a)
    · exact ih _ ha'

theorem monthKeys_applyOne_stable (h : History) (x : Assignment)
    (hm : monthKeyOf x.date ∈ (histMonths h x.worker).map Prod.fst) (w : String) :
    (histMonths (applyOne h x) w).map Prod.fst = (histMonths h w).map Prod.fst := by
  rw [histMonths_applyOne]
  by_cases hw : w = x.worker
  · rw [if_pos hw, keysA_setA, if_pos hm, hw]
  · rw [if_neg hw]

theorem monthKeys_foldl_stable (seq : List Assignment) (h : History)
    (hall : ∀ a ∈ seq, a.worker ∈ h.map Prod.fst ∧
      monthKeyOf a.date ∈ (histMonths h a.worker).map Prod.fst) (w : String) :
    (histMonths (seq.foldl applyOne h) w).map Prod.fst =
      (histMonths h w).map Prod.fst := by
  induction seq generalizing h with
  | nil => rfl
  | cons x t ih =>
    have hx := hall x (List.mem_cons_self _ _)
    have hst := monthKeys_applyOne_stable h x hx.2
    have hk1 := keys_applyOne_of_mem h x hx.1
    rw [List.foldl_cons, ih (applyOne h x)
      (fun a ha => ⟨hk1 ▸ (hall a (List.mem_cons_of_mem _ ha)).1,
        hst a.worker ▸ (hall a (List.mem_cons_of_mem _ ha)).2⟩), hst w]

theorem nodup_keys_applyOne {h : History} (hnd : (h.map Prod.fst).Nodup)
    (x : Assignment) : ((applyOne h x).map Prod.fst).Nodup := by
  unfold applyOne
  exact nodup_keysA_setA hnd _ _

theorem nodup_keys_foldl (seq : List Assignment) {h : History}
    (hnd : (h.map Prod.fst).Nodup) : ((seq.foldl applyOne h).map Prod.fst).Nodup := by
  induction seq generalizing h with
  | nil => exact hnd
  | cons x t ih => exact ih (nodup_keys_applyOne hnd x)

theorem nodup_monthKeys_applyOne {h : History}
    (hnd : ∀ w, ((histMonths h w).map Prod.fst).Nodup) (x : Assignment) (w : String) :
    ((histMonths (applyOne h x) w).map Prod.fst).Nodup := by
  rw [histMonths_applyOne]
  split
  · exact nodup_keysA_setA (hnd x.worker) _ _
  · exact hnd w

theorem nodup_monthKeys_foldl (seq : List Assignment) {h : History}
    (hnd : ∀ w, ((histMonths h w).map Prod.fst).Nodup) (w : String) :
    ((histMonths (seq.foldl applyOne h) w).map Prod.fst).Nodup := by
  induction seq generalizing h with
  | nil => exact hnd w
  | cons x t ih => exact ih (fun w' => nodup_monthKeys_applyOne hnd x w')

theorem initial_month_nodup (h : History) (hnd2 : ∀ p ∈ h, (p.2.map Prod.fst).Nodup)
    (w : String) : ((histMonths h w).map Prod.fst).Nodup := by
  unfold histMonths
  cases hlk : lookupA h w with
  | none => simp
  | some ml => exact hnd2 _ (lookupA_mem hlk)

theorem mem_of_mem_regroup {batch : List Assignment} {a : Assignment}
    (h : a ∈ regroupByMonth batch) : a ∈ batch := by
  unfold regroupByMonth at h
  obtain ⟨k, _, hf⟩ := List.mem_flatMap.1 h
  exact (List.mem_filter.1 hf).1

/-! ### Lemmas for the 24h-rest builders -/

theorem pairForbidden_iff (a b : Shift) (ha : a.start < a.stop) (hb : b.start < b.stop) :
    pairForbidden a b = true ↔
      (max a.start b.start < min a.stop b.stop) ∨
      (a.stop ≤ b.start ∧ b.start - a.stop < MIN_REST_HOURS) ∨
      (b.stop ≤ a.start ∧ a.start - b.stop < MIN_REST_HOURS) := by
  unfold pairForbidden
  split_ifs with h1 h2 h3
  · simp [h1]
  · simp only [decide_eq_true_eq]
    constructor
    · intro h; exact Or.inr (Or.inl ⟨h2, h⟩)
    · rintro (h | ⟨_, h⟩ | ⟨hb2, _⟩)
      · exact absurd h h1
      · exact h
      · exfalso; omega
  · simp only [decide_eq_true_eq]
    constructor
    · intro h; exact Or.inr (Or.inr ⟨h3, h⟩)
    · rintro (h | ⟨hb2, _⟩ | ⟨_, h⟩)
      · exact absurd h h1
      · exact absurd hb2 h2
      · exact h
  · simp only [Bool.false_eq_true, false_iff]
    rintro (h | ⟨hb2, _⟩ | ⟨hb2, _⟩)
    · exact h1 h
    · exact h2 hb2
    · exact h3 hb2

theorem pairForbidden_symm (a b : Shift) (ha : a.start < a.stop) (hb : b.start < b.stop) :
    pairForbidden a b = pairForbidden b a := by
  rw [Bool.eq_iff_iff, pairForbidden_iff a b ha hb, pairForbidden_iff b a hb ha]
  constructor
  · rintro (h | h | h)
    · exact Or.inl (by rw [max_comm, min_comm] at h; exact h)
    · exact Or.inr (Or.inr h)
    · exact Or.inr (Or.inl h)
  · rintro (h | h | h)
    · exact Or.inl (by rw [max_comm, min_comm] at h; exact h)
    · exact Or.inr (Or.inr h)
    · exact Or.inr (Or.inl h)

theorem pairForbidden_false_of_far (a b : Shift) (ha : a.start < a.stop)
    (hb : b.start < b.stop) (h : MAX_CHECK_HOURS ≤ b.start - a.stop) :
    pairForbidden a b = false := by
  rw [Bool.eq_false_iff]
  intro hf
  rw [pairForbidden_iff a b ha hb] at hf
  have h48 : (48 : Int) ≤ b.start - a.stop := h
  have hm : MIN_REST_HOURS = 24 := rfl
  rw [hm] at hf
  rcases hf with hf | hf | hf
  · simp only [max_lt_iff, lt_min_iff] at hf
    omega
  · omega
  · omega

theorem mem_allPairsForbidden {shifts : List Shift} {p q : Nat} :
    (p, q) ∈ allPairsForbidden shifts ↔
      p < q ∧ q < shifts.length ∧
        pairForbidden (shiftAt shifts p) (shiftAt shifts q) = true := by
  unfold allPairsForbidden
  rw [List.mem_flatMap]
  constructor
  · rintro ⟨a, ha, hmem⟩
    obtain ⟨b, hb, heq⟩ := List.mem_filterMap.1 hmem
    obtain ⟨hbr, hab⟩ := List.mem_filter.1 hb
    split_ifs at heq with hforb
    · injection heq with heq
      obtain ⟨rfl, rfl⟩ : a = p ∧ b = q :=
        ⟨congrArg Prod.fst heq, congrArg Prod.snd heq⟩
      exact ⟨by simpa using hab, List.mem_range.1 hbr, hforb⟩
  · rintro ⟨hpq, hq, hforb⟩
    refine ⟨p, List.mem_range.2 (lt_trans hpq hq), ?_⟩
    refine List.mem_filterMap.2
      ⟨q, List.mem_filter.2 ⟨List.mem_range.2 hq, by simpa using hpq⟩, ?_⟩
    rw [if_pos hforb]

theorem sortedIndices_perm (shifts : List Shift) :
    (sortedIndices shifts).Perm (List.range shifts.length) :=
  List.mergeSort_perm _ _

theorem mem_sortedIndices {shifts : List Shift} {i : Nat} :
    i ∈ sortedIndices shifts ↔ i < shifts.length := by
  rw [(sortedIndices_perm shifts).mem_iff, List.mem_range]

theorem sortedIndices_nodup (shifts : List Shift) : (sortedIndices shifts).Nodup :=
  (sortedIndices_perm shifts).nodup_iff.2 (List.nodup_range _)

theorem sortedIndices_sorted (shifts : List Shift) :
    List.Pairwise
      (fun a b => (decide ((shiftAt shifts a).start ≤ (shiftAt shifts b).start)) = true)
      (sortedIndices shifts) := by
  refine List.sorted_mergeSort ?_ ?_ _
  · intro a b c hab hbc
    simp only [decide_eq_true_eq] at *
    exact le_trans hab hbc
  · intro a b
    simp only [Bool.or_eq_true, decide_eq_true_eq]
    exact le_total _ _

theorem mem_sweepInner {shifts : List Shift} {i : Nat} {l : List Nat} {p : Nat × Nat}
    (h : p ∈ sweepInner shifts i l) :
    p.1 = i ∧ p.2 ∈ l ∧
      pairForbidden (shiftAt shifts i) (shiftAt shifts p.2) = true := by
  induction l with
  | nil => simp [sweepInner] at h
  | cons j t ih =>
    unfold sweepInner at h
    split_ifs at h with hbreak hforb
    · simp at h
    · rcases List.mem_append.1 h with hl | hr
      · simp only [List.mem_singleton] at hl
        subst hl
        exact ⟨rfl, List.mem_cons_self _ _, hforb⟩
      · obtain ⟨h1, h2, h3⟩ := ih hr
        exact ⟨h1, List.mem_cons_of_mem _ h2, h3⟩
    · rw [List.nil_append] at h
      obtain ⟨h1, h2, h3⟩ := ih h
      exact ⟨h1, List.mem_cons_of_mem _ h2, h3⟩

theorem sweepInner_complete {shifts : List Shift}
    (hwf : ∀ s : Nat, s < shifts.length → (shiftAt shifts s).start < (shiftAt shifts s).stop)
    {i : Nat} (hi : i < shifts.length) {l : List Nat} (hl : ∀ x ∈ l, x < shifts.length)
    {j : Nat} (hj : j ∈ l)
    (hsorted : List.Pairwise
      (fun a b => (decide ((shiftAt shifts a).start ≤ (shiftAt shifts b).start)) = true) l)
    (hforb : pairForbidden (shiftAt shifts i) (shiftAt shifts j) = true) :
    (i, j) ∈ sweepInner shifts i l := by
  induction l with
  | nil => simp at hj
  | cons x t ih =>
    unfold sweepInner
    by_cases hbreak : MAX_CHECK_HOURS ≤ (shiftAt shifts x).start - (shiftAt shifts i).stop
    · exfalso
      rcases List.mem_cons.1 hj with rfl | hjt
      · rw [pairForbidden_false_of_far _ _ (hwf i hi) (hwf j (hl j hj)) hbreak] at hforb
        exact Bool.false_ne_true hforb
      · have hxj : (shiftAt shifts x).start ≤ (shiftAt shifts j).start := by
          have := (List.pairwise_cons.1 hsorted).1 j hjt
          simpa using this
        have hfar : MAX_CHECK_HOURS ≤ (shiftAt shifts j).start - (shiftAt shifts i).stop := by
          have hx : MAX_CHECK_HOURS = 48 := rfl
          rw [hx] at hbreak ⊢
          omega
        rw [pairForbidden_false_of_far _ _ (hwf i hi) (hwf j (hl j hj)) hfar] at hforb
        exact Bool.false_ne_true hforb
    · rw [if_neg hbreak]
      rcases List.mem_cons.1 hj with rfl | hjt
      · rw [if_pos hforb]
        exact List.mem_append_left _ (List.mem_singleton.2 rfl)
      · exact List.mem_append_right _
          (ih (fun y hy => hl y (List.mem_cons_of_mem _ hy)) hjt
            (List.pairwise_cons.1 hsorted).2)

theorem mem_sweepOuter_split {shifts : List Shift} {l : List Nat} {p : Nat × Nat}
    (h : p ∈ sweepOuter shifts l) :
    ∃ l1 l2, l = l1 ++ p.1 :: l2 ∧ p ∈ sweepInner shifts p.1 l2 := by
  induction l with
  | nil => simp [sweepOuter] at h
  | cons i rest ih =>
    unfold sweepOuter at h
    rcases List.mem_append.1 h with hl | hr
    · have h1 := (mem_sweepInner hl).1
      exact ⟨[], rest, by simp [h1], h1 ▸ hl⟩
    · obtain ⟨l1, l2, heq, hmem⟩ := ih hr
      exact ⟨i :: l1, l2, by rw [heq]; rfl, hmem⟩

theorem sweepOuter_of_split {shifts : List Shift} {l1 l2 : List Nat} {a : Nat}
    {p : Nat × Nat} (hmem : p ∈ sweepInner shifts a l2) :
    p ∈ sweepOuter shifts (l1 ++ a :: l2) := by
  induction l1 with
  | nil =>
    unfold sweepOuter
    exact List.mem_append_left _ ((mem_sweepInner hmem).1 ▸ hmem)
  | cons x t ih =>
    unfold sweepOuter
    exact List.mem_append_right _ ih

theorem exists_split_of_mem_mem {α : Type} {l : List α} {a b : α}
    (ha : a ∈ l) (hb : b ∈ l) (hab : a ≠ b) :
    ∃ x y l1 l2, ((x = a ∧ y = b) ∨ (x = b ∧ y = a)) ∧ l = l1 ++ x :: l2 ∧ y ∈ l2 := by
  induction l with
  | nil => simp at ha
  | cons c t ih =>
    by_cases hca : c = a
    · subst hca
      have hbt : b ∈ t := by
        rcases List.mem_cons.1 hb with h | h
        · exact absurd h.symm hab
        · exact h
      exact ⟨c, b, [], t, Or.inl ⟨rfl, rfl⟩, rfl, hbt⟩
    · by_cases hcb : c = b
      · subst hcb
        have hat : a ∈ t := by
          rcases List.mem_cons.1 ha with h | h
          · exact absurd h hab
          · exact h
        exact ⟨c, a, [], t, Or.inr ⟨rfl, rfl⟩, rfl, hat⟩
      · have hat : a ∈ t := by
          rcases List.mem_cons.1 ha with h | h
          · exact absurd h.symm hca
          · exact h
        have hbt : b ∈ t := by
          rcases List.mem_cons.1 hb with h | h
          · exact absurd h.symm hcb
          · exact h
        obtain ⟨x, y, l1, l2, hxy, heq, hy⟩ := ih hat hbt
        exact ⟨x, y, c :: l1, l2, hxy, by rw [heq]; rfl, hy⟩

theorem sweep_sub_allPairs {shifts : List Shift}
    (hwf : ∀ s : Nat, s < shifts.length → (shiftAt shifts s).start < (shiftAt shifts s).stop)
    {p q : Nat} (h : (p, q) ∈ sweepForbidden shifts) :
    (p, q) ∈ allPairsForbidden shifts ∨ (q, p) ∈ allPairsForbidden shifts := by
  unfold sweepForbidden at h
  obtain ⟨l1, l2, heq, hmem⟩ := mem_sweepOuter_split h
  obtain ⟨-, hq2, hforb⟩ := mem_sweepInner hmem
  have hpmem : p ∈ sortedIndices shifts := by
    rw [heq]
    exact List.mem_append_right _ (List.mem_cons_self _ _)
  have hqmem : q ∈ sortedIndices shifts := by
    rw [heq]
    exact List.mem_append_right _ (List.mem_cons_of_mem _ hq2)
  have hpn : p < shifts.length := mem_sortedIndices.1 hpmem
  have hqn : q < shifts.length := mem_sortedIndices.1 hqmem
  have hne : p ≠ q := by
    intro hpq
    have hnd := sortedIndices_nodup shifts
    rw [heq, List.nodup_append] at hnd
    have : p ∉ l2 := (List.nodup_cons.1 hnd.2.1).1
    exact this (hpq ▸ hq2)
  rcases Nat.lt_or_ge p q with hlt | hge
  · exact Or.inl (mem_allPairsForbidden.2 ⟨hlt, hqn, hforb⟩)
  · have hqp : q < p := lt_of_le_of_ne hge (fun hh => hne hh.symm)
    refine Or.inr (mem_allPairsForbidden.2 ⟨hqp, hpn, ?_⟩)
    rw [pairForbidden_symm _ _ (hwf q hqn) (hwf p hpn)]
    exact hforb

theorem allPairs_sub_sweep {shifts : List Shift}
    (hwf : ∀ s : Nat, s < shifts.length → (shiftAt shifts s).start < (shiftAt shifts s).stop)
    {p q : Nat} (h : (p, q) ∈ allPairsForbidden shifts) :
    (p, q) ∈ sweepForbidden shifts ∨ (q, p) ∈ sweepForbidden shifts := by
  obtain ⟨hpq, hqn, hforb⟩ := mem_allPairsForbidden.1 h
  have hpn : p < shifts.length := lt_trans hpq hqn
  have hpmem : p ∈ sortedIndices shifts := mem_sortedIndices.2 hpn
  have hqmem : q ∈ sortedIndices shifts := mem_sortedIndices.2 hqn
  have hne : p ≠ q := Nat.ne_of_lt hpq
  obtain ⟨x, y, l1, l2, hxy, heq, hy⟩ := exists_split_of_mem_mem hpmem hqmem hne
  have hsorted := sortedIndices_sorted shifts
  rw [heq] at hsorted
  have hl2sorted := ((List.pairwise_append.1 hsorted).2.1).of_cons
  have hl2sub : ∀ z ∈ l2, z < shifts.length := by
    intro z hz
    refine mem_sortedIndices.1 ?_
    rw [heq]
    exact List.mem_append_right _ (List.mem_cons_of_mem _ hz)
  have hxn : x < shifts.length := by
    refine mem_sortedIndices.1 ?_
    rw [heq]
    exact List.mem_append_right _ (List.mem_cons_self _ _)
  have hxyforb : pairForbidden (shiftAt shifts x) (shiftAt shifts y) = true := by
    rcases hxy with ⟨h1, h2⟩ | ⟨h1, h2⟩
    · rw [h1, h2]
      exact hforb
    · rw [h1, h2, pairForbidden_symm _ _ (hwf q hqn) (hwf p hpn)]
      exact hforb
  have hin : (x, y) ∈ sweepInner shifts x l2 :=
    sweepInner_complete hwf hxn hl2sub hy hl2sorted hxyforb
  have hout : (x, y) ∈ sweepForbidden shifts := by
    unfold sweepForbidden
    rw [heq]
    exact sweepOuter_of_split hin
  rcases hxy with ⟨h1, h2⟩ | ⟨h1, h2⟩
  · rw [← h1, ← h2]
    exact Or.inl hout
  · rw [← h1, ← h2]
    exact Or.inr hout

/-! ## Claim theorems -/

/-- C3: `generate_schedule` is claimed never to raise; in the code its final
merge step resolves `schedule_pipeline.merge_excluded_weeks_into_results`,
which the module does not define, so every completed call raises
`AttributeError` instead of returning the structured 5-tuple. -/
theorem generate_schedule_merge_step_raises :
    generateScheduleMergeStep = Except.error "AttributeError" ∧
    mergeCallAttr ∉ schedulePipelineModuleAttrs := by
  constructor
  · rfl
  · decide

/-- C9 counterexample: the relaxation analysis of
`ConstraintDiagnostics.run_relaxation_analysis` never tests a model
containing the cross-window-rest group, tests exactly four models, and those
models form no incremental chain (no tested model's constraint groups are
contained in another's), refuting the claimed one-group-at-a-time
incremental rebuild in the order ending with cross-window rest and weekly
participation. -/
theorem relaxation_not_incremental :
    (∀ p ∈ relaxationConstraintGroups, DiagGroup.crossWindowRest ∉ p.2) ∧
    relaxationConstraintGroups.length = 4 ∧
    (∀ p ∈ relaxationConstraintGroups, ∀ q ∈ relaxationConstraintGroups,
      p ≠ q → ¬(∀ g ∈ p.2, g ∈ q.2)) := by
  decide

/-- C9 (amended): on infeasibility the diagnostics engine solves four
leave-one-out variants, each omitting exactly one of weekly participation,
24h rest, one-shift-per-day and night restrictions from the full group set
(coverage and unavailability always kept), records each variant's
feasibility, and its summary names exactly the groups whose removal makes
the model feasible. -/
theorem run_relaxation_analysis_leave_one_out (feasible : List DiagGroup → Bool) :
    runRelaxationAnalysis feasible =
      relaxationRemoved.map
        (fun p => (p.1, feasible (fullDiagGroups.filter (fun g => g ≠ p.2)))) ∧
    (∀ name, name ∈ relaxationSummaryNames (runRelaxationAnalysis feasible) ↔
      ∃ p ∈ relaxationConstraintGroups, p.1 = name ∧ feasible p.2 = true) := by
  constructor
  · rfl
  · intro name
    simp only [relaxationSummaryNames, runRelaxationAnalysis, List.filter_map,
      List.map_map, List.mem_map, List.mem_filter, Function.comp]
    constructor
    · rintro ⟨p, ⟨hp, hf⟩, rfl⟩
      exact ⟨p, hp, rfl, hf⟩
    · rintro ⟨p, hp, rfl, hf⟩
      exact ⟨p, ⟨hp, hf⟩, rfl⟩

/-- C10: for shifts built by `create_shifts`, any two night shifts on
consecutive calendar days start exactly 24 hours apart, so the 96-hour
exemption of the consecutive-night-shift avoidance rule never applies: every
such pair contributes a penalty term for every worker. -/
theorem consecutive_night_exemption_never_fires
    (days : List Date) (numWorkers w i j : Nat) (hw : w < numWorkers)
    (hpair : (i, j) ∈ pairsAfter (nightShiftIndices (createShifts days)))
    (hconsec : ((shiftAt (createShifts days) j).day -
      (shiftAt (createShifts days) i).day).natAbs = 1) :
    ((shiftAt (createShifts days) j).start -
      (shiftAt (createShifts days) i).start).natAbs = 24 ∧
    (w, i, j) ∈ consecNightTerms (createShifts days) numWorkers := by
  obtain ⟨hi, hj⟩ := pairsAfter_mem hpair
  rw [mem_nightShiftIndices] at hi hj
  have hsi := createShifts_night_start (shiftAt_mem hi.1) hi.2
  have hsj := createShifts_night_start (shiftAt_mem hj.1) hj.2
  have hstart : (shiftAt (createShifts days) j).start -
      (shiftAt (createShifts days) i).start =
      24 * ((shiftAt (createShifts days) j).day - (shiftAt (createShifts days) i).day) := by
    rw [hsi, hsj]; ring
  have habs : ((shiftAt (createShifts days) j).start -
      (shiftAt (createShifts days) i).start).natAbs = 24 := by
    rw [hstart, Int.natAbs_mul, hconsec]
    rfl
  refine ⟨habs, ?_⟩
  simp only [consecNightTerms, List.mem_flatMap, List.mem_range]
  refine ⟨w, hw, ?_⟩
  simp only [List.mem_filterMap]
  refine ⟨(i, j), hpair, ?_⟩
  simp only [hconsec, habs]
  norm_num [NIGHT_SHIFT_CONSECUTIVE_MIN_HOURS]

/-- C1: every assignment satisfying the constraints of
`add_basic_constraints` covers each shift with exactly one worker, gives no
worker two shift instances on the same day, and gives night shifts only to
night-capable workers. -/
theorem basic_constraints_invariants
    (workers : List Worker) (shifts : List Shift) (a : Nat → Nat → Bool)
    (hsat : ∀ c ∈ addBasicConstraints workers.length shifts.length
        (groupShiftsByDay shifts) workers shifts, evalCons a c = true) :
    (∀ s < shifts.length, ((List.range workers.length).countP fun w => a w s) = 1) ∧
    (∀ w < workers.length, ∀ i j, i < shifts.length → j < shifts.length → i ≠ j →
      (shiftAt shifts i).day = (shiftAt shifts j).day → ¬(a w i = true ∧ a w j = true)) ∧
    (∀ w < workers.length, (workerAt workers w).canNight = false →
      ∀ s < shifts.length, (shiftAt shifts s).night = true → a w s = false) := by
  refine ⟨?_, ?_, ?_⟩
  · intro s hs
    have hc : Cons.exactlyOne ((List.range workers.length).map fun w => (w, s)) ∈
        addBasicConstraints workers.length shifts.length (groupShiftsByDay shifts)
          workers shifts := by
      unfold addBasicConstraints
      exact List.mem_append_left _
        (List.mem_append_left _ (List.mem_map.2 ⟨s, List.mem_range.2 hs, rfl⟩))
    have := hsat _ hc
    simp only [evalCons, List.countP_map, beq_iff_eq] at this
    simpa using this
  · intro w hw i j hi hj hij hday ⟨hai, haj⟩
    have hbi := mem_groupShiftsByDay_bucket shifts i hi
    have hbj := mem_groupShiftsByDay_bucket shifts j hj
    rw [hday] at hbi
    cases hlk : lookupDay (groupShiftsByDay shifts) ((shiftAt shifts j).day) with
    | none => rw [hlk] at hbi; simp at hbi
    | some ss =>
      rw [hlk] at hbi hbj
      simp only [Option.getD_some] at hbi hbj
      have hg : ((shiftAt shifts j).day, ss) ∈ groupShiftsByDay shifts :=
        lookupDay_eq_some_mem hlk
      have hc : Cons.sumLe (ss.map fun s => (w, s)) 1 ∈
          addBasicConstraints workers.length shifts.length (groupShiftsByDay shifts)
            workers shifts := by
        unfold addBasicConstraints
        refine List.mem_append_left _ (List.mem_append_right _ ?_)
        exact List.mem_flatMap.2 ⟨w, List.mem_range.2 hw,
          List.mem_map.2 ⟨_, hg, rfl⟩⟩
      have := hsat _ hc
      simp only [evalCons, List.countP_map, decide_eq_true_eq] at this
      have h2 : 2 ≤ ss.countP fun s => a w s :=
        two_le_countP hij hbi hbj hai haj
      have : ((ss.countP fun s => a w s : Nat) : Int) ≤ 1 := by
        simpa [Function.comp] using this
      omega
  · intro w hw hcn s hs hnight
    have hc : Cons.fixVar (w, s) 0 ∈
        addBasicConstraints workers.length shifts.length (groupShiftsByDay shifts)
          workers shifts := by
      unfold addBasicConstraints
      refine List.mem_append_right _ ?_
      refine List.mem_flatMap.2 ⟨w, List.mem_range.2 hw, ?_⟩
      rw [hcn]
      simp only [Bool.false_eq_true, if_false]
      exact List.mem_filterMap.2 ⟨s, List.mem_range.2 hs, by rw [hnight]; simp⟩
    have := hsat _ hc
    simp only [evalCons] at this
    cases ha : a w s
    · rfl
    · rw [ha] at this; simp at this

/-- Witness for C1: a one-day window with three workers (the third not
night-capable) and the feasible assignment M1 to worker 2, M2 to worker 1,
night to worker 0. -/
theorem basic_constraints_invariants_witness :
    (∀ c ∈ addBasicConstraints 3 (createShifts [0]).length
        (groupShiftsByDay (createShifts [0]))
        [⟨"w0", true, 12⟩, ⟨"w1", true, 12⟩, ⟨"w2", false, 12⟩] (createShifts [0]),
      evalCons (fun w s => (w == 2 && s == 0) || (w == 1 && s == 1) || (w == 0 && s == 2)) c
        = true) ∧
    (∀ s < (createShifts [(0 : Date)]).length,
      ((List.range 3).countP fun w =>
        (w == 2 && s == 0) || (w == 1 && s == 1) || (w == 0 && s == 2)) = 1) := by
  constructor
  · decide
  · exact (basic_constraints_invariants
      [⟨"w0", true, 12⟩, ⟨"w1", true, 12⟩, ⟨"w2", false, 12⟩] (createShifts [0])
      (fun w s => (w == 2 && s == 0) || (w == 1 && s == 1) || (w == 0 && s == 2))
      (by decide)).1

theorem SHIFTS_lookup_cases {st : String} {cfg : ShiftConfig}
    (h : SHIFTS.lookup st = some cfg) :
    cfg = ⟨8, 20, 12, false⟩ ∨ cfg = ⟨8, 23, 15, false⟩ ∨ cfg = ⟨20, 32, 12, true⟩ := by
  by_cases h1 : st = "M1"
  · subst h1
    have : cfg = ⟨8, 20, 12, false⟩ := by
      have hr : SHIFTS.lookup "M1" = some ⟨8, 20, 12, false⟩ := rfl
      rw [hr] at h; injection h with h; exact h.symm
    exact Or.inl this
  by_cases h2 : st = "M2"
  · subst h2
    have : cfg = ⟨8, 23, 15, false⟩ := by
      have hr : SHIFTS.lookup "M2" = some ⟨8, 23, 15, false⟩ := rfl
      rw [hr] at h; injection h with h; exact h.symm
    exact Or.inr (Or.inl this)
  by_cases h3 : st = "N"
  · subst h3
    have : cfg = ⟨20, 32, 12, true⟩ := by
      have hr : SHIFTS.lookup "N" = some ⟨20, 32, 12, true⟩ := rfl
      rw [hr] at h; injection h with h; exact h.symm
    exact Or.inr (Or.inr this)
  · exfalso
    have hb1 : (st == "M1") = false := beq_eq_false_iff_ne.2 h1
    have hb2 : (st == "M2") = false := beq_eq_false_iff_ne.2 h2
    have hb3 : (st == "N") = false := beq_eq_false_iff_ne.2 h3
    simp [SHIFTS, List.lookup, hb1, hb2, hb3] at h

theorem SHIFTS_lookup_endHour {st : String} {cfg : ShiftConfig}
    (h : SHIFTS.lookup st = some cfg) : cfg.endHour ≤ 32 := by
  rcases SHIFTS_lookup_cases h with rfl | rfl | rfl <;> decide

/-- C4: a worker with a historical assignment on one of the two days before
the window's first day is blocked (variable forced to 0) from every shift
whose start is not after that historical shift's end or whose rest gap after
it is below 24 hours; and a shift whose rest gap after every such historical
shift is at least 24 hours is not blocked by this constraint. -/
theorem cross_week_rest_blocking
    (shifts : List Shift) (workers : List Worker) (days : List Date) (history : History)
    (hdays : days ≠ []) (hhist : history ≠ [])
    (w s : Nat) (hw : w < workers.length) (hs : s < shifts.length) :
    ((∀ histDay ∈ [days.headD 0 - 1, days.headD 0 - 2], ∀ st cfg,
        fixedShiftFor history (workerAt workers w).name histDay = some st →
        SHIFTS.lookup st = some cfg →
        ((shiftAt shifts s).start ≤ (24 * histDay + cfg.endHour : Int) ∨
          (shiftAt shifts s).start - (24 * histDay + cfg.endHour : Int) < MIN_REST_HOURS) →
        (w, s) ∈ crossWeekBlocked shifts workers days history)) ∧
    ((∀ histDay ∈ [days.headD 0 - 1, days.headD 0 - 2], ∀ st cfg,
        fixedShiftFor history (workerAt workers w).name histDay = some st →
        SHIFTS.lookup st = some cfg →
        (24 * histDay + cfg.endHour : Int) < (shiftAt shifts s).start ∧
        MIN_REST_HOURS ≤ (shiftAt shifts s).start - (24 * histDay + cfg.endHour : Int)) →
      (w, s) ∉ crossWeekBlocked shifts workers days history) := by
  have hif : (days.isEmpty || history.isEmpty) = false := by
    rw [Bool.or_eq_false_iff]
    constructor
    · rw [← Bool.not_eq_true, List.isEmpty_eq_true]; exact hdays
    · rw [← Bool.not_eq_true, List.isEmpty_eq_true]; exact hhist
  constructor
  · intro histDay hmemDay st cfg hfix hlook hcase
    have hend : cfg.endHour ≤ 32 := SHIFTS_lookup_endHour hlook
    have hday12 : histDay = days.headD 0 - 1 ∨ histDay = days.headD 0 - 2 := by
      simpa using hmemDay
    have hcut' : (shiftAt shifts s).start < (24 * (days.headD 0 + 2) : Int) := by
      have h24 : MIN_REST_HOURS = 24 := rfl
      rw [h24] at hcase
      rcases hday12 with rfl | rfl <;> rcases hcase with hle | hlt <;> omega
    have hcut : ¬((24 * (days.headD 0 + 2) : Int) ≤ (shiftAt shifts s).start) :=
      not_le.mpr hcut'
    simp only [crossWeekBlocked, hif, Bool.false_eq_true, if_false]
    refine List.mem_flatMap.2 ⟨w, List.mem_range.2 hw, ?_⟩
    refine List.mem_flatMap.2 ⟨histDay, hmemDay, ?_⟩
    simp only [hfix, hlook]
    refine List.mem_filterMap.2 ⟨s, List.mem_range.2 hs, ?_⟩
    rw [if_neg hcut]
    rcases hcase with hle | hlt
    · rw [if_pos hle]
    · by_cases hle2 : (shiftAt shifts s).start ≤ 24 * histDay + cfg.endHour
      · rw [if_pos hle2]
      · rw [if_neg hle2, if_pos hlt]
  · intro hb hmem
    simp only [crossWeekBlocked, hif, Bool.false_eq_true, if_false] at hmem
    obtain ⟨w', hw', hmem2⟩ := List.mem_flatMap.1 hmem
    obtain ⟨histDay', hmemDay', hmem3⟩ := List.mem_flatMap.1 hmem2
    cases hfx : fixedShiftFor history (workerAt workers w').name histDay' with
    | none => simp only [hfx] at hmem3; simp at hmem3
    | some st' =>
      simp only [hfx] at hmem3
      cases hlk : SHIFTS.lookup st' with
      | none => simp only [hlk] at hmem3; simp at hmem3
      | some cfg' =>
        simp only [hlk] at hmem3
        obtain ⟨s', hs', heq⟩ := List.mem_filterMap.1 hmem3
        have hww : w' = w ∧ s' = s := by
          split_ifs at heq with hc1 hc2 hc3 <;>
            (injection heq with h
             exact ⟨congrArg Prod.fst h, congrArg Prod.snd h⟩)
        obtain ⟨rfl, rfl⟩ := hww
        obtain ⟨hg1, hg2⟩ := hb histDay' hmemDay' st' cfg' hfx hlk
        split_ifs at heq with hc1 hc2 hc3 <;> omega

/-- C7: `update_history` is idempotent: re-applying the same assignment
batch leaves the history unchanged (replace-not-append semantics keyed by
date), and entries whose (worker, month, date) is not targeted by the batch
are preserved. -/
theorem update_history_idempotent
    (batch : List Assignment) (h : History)
    (hnd : (h.map Prod.fst).Nodup)
    (hnd2 : ∀ p ∈ h, (p.2.map Prod.fst).Nodup) :
    updateHistory batch (updateHistory batch h) = updateHistory batch h ∧
    (∀ w k x, x ∈ histCell h w k →
      (∀ a ∈ batch, ¬(a.worker = w ∧ monthKeyOf a.date = k ∧ a.date = x.date)) →
      x ∈ histCell (updateHistory batch h) w k) := by
  constructor
  · show (regroupByMonth batch).foldl applyOne
      ((regroupByMonth batch).foldl applyOne h) = (regroupByMonth batch).foldl applyOne h
    set seq := regroupByMonth batch with hseq
    set H1 := seq.foldl applyOne h with hH1
    have hallW : ∀ a ∈ seq, a.worker ∈ H1.map Prod.fst :=
      fun a ha => worker_key_mem_foldl seq h ha
    have hallM : ∀ a ∈ seq, a.worker ∈ H1.map Prod.fst ∧
        monthKeyOf a.date ∈ (histMonths H1 a.worker).map Prod.fst :=
      fun a ha => ⟨worker_key_mem_foldl seq h ha, month_key_mem_foldl seq h ha⟩
    have hkeys : (seq.foldl applyOne H1).map Prod.fst = H1.map Prod.fst :=
      keys_foldl_stable seq H1 hallW
    have hnd1 : (H1.map Prod.fst).Nodup := nodup_keys_foldl seq hnd
    have hmnd1 : ∀ w, ((histMonths H1 w).map Prod.fst).Nodup :=
      fun w => nodup_monthKeys_foldl seq (initial_month_nodup h hnd2) w
    refine assoc_ext hkeys (by rw [hkeys]; exact hnd1) ?_
    intro w
    by_cases hw : w ∈ H1.map Prod.fst
    · obtain ⟨m1, hm1⟩ := exists_lookupA_of_mem_keys hw
      have hw2 : w ∈ (seq.foldl applyOne H1).map Prod.fst := by rw [hkeys]; exact hw
      obtain ⟨m2, hm2⟩ := exists_lookupA_of_mem_keys hw2
      rw [hm1, hm2]
      have hHM1 : histMonths H1 w = m1 := by unfold histMonths; rw [hm1]; rfl
      have hHM2 : histMonths (seq.foldl applyOne H1) w = m2 := by
        unfold histMonths; rw [hm2]; rfl
      have hkm : m2.map Prod.fst = m1.map Prod.fst := by
        rw [← hHM1, ← hHM2]
        exact monthKeys_foldl_stable seq H1 hallM w
      have hcells : ∀ k, histCell (seq.foldl applyOne H1) w k = histCell H1 w k := by
        intro k
        rw [histCell_foldl seq H1 w k, histCell_foldl seq h w k]
        exact foldl_applyAss_idem _ _
      have hm2nd : (m2.map Prod.fst).Nodup := by
        rw [hkm, ← hHM1]; exact hmnd1 w
      have : m2 = m1 := by
        refine assoc_ext hkm hm2nd ?_
        intro k
        by_cases hk : k ∈ m1.map Prod.fst
        · obtain ⟨c1, hc1⟩ := exists_lookupA_of_mem_keys hk
          have hk2 : k ∈ m2.map Prod.fst := by rw [hkm]; exact hk
          obtain ⟨c2, hc2⟩ := exists_lookupA_of_mem_keys hk2
          rw [hc1, hc2]
          have e1 : histCell H1 w k = c1 := by
            unfold histCell; rw [hHM1, hc1]; rfl
          have e2 : histCell (seq.foldl applyOne H1) w k = c2 := by
            unfold histCell; rw [hHM2, hc2]; rfl
          rw [← e1, ← e2, hcells k]
        · have hk2 : k ∉ m2.map Prod.fst := by rw [hkm]; exact hk
          rw [lookupA_eq_none_of_not_mem _ _ hk2, lookupA_eq_none_of_not_mem _ _ hk]
      rw [this]
    · have hw2 : w ∉ (seq.foldl applyOne H1).map Prod.fst := by rw [hkeys]; exact hw
      rw [lookupA_eq_none_of_not_mem _ _ hw2, lookupA_eq_none_of_not_mem _ _ hw]
  · intro w k x hx hpres
    show x ∈ histCell ((regroupByMonth batch).foldl applyOne h) w k
    rw [histCell_foldl, foldl_applyAss_eq]
    apply List.mem_append_left
    rw [List.mem_filter]
    refine ⟨hx, ?_⟩
    rw [List.all_eq_true]
    intro a ha
    obtain ⟨haseq, hcond⟩ := List.mem_filter.1 ha
    have hab : a ∈ batch := mem_of_mem_regroup haseq
    simp only [Bool.and_eq_true, decide_eq_true_eq] at hcond
    rw [decide_eq_true_eq]
    intro hdx
    exact (hpres a hab) ⟨hcond.1, hcond.2, hdx.symm⟩

/-- Witness for C7: applying a batch that replaces the history entry for
worker A on 2026-03-01 twice yields the same history as applying it once,
and the untouched entry of 2026-03-02 survives. -/
theorem update_history_idempotent_witness :
    (((([("A", [((2026, 3),
        [(⟨"A", 20513, "M1", 12⟩ : Assignment), ⟨"A", 20514, "N", 12⟩])])]) : History).map
          Prod.fst).Nodup ∧
      (∀ p ∈ ([("A", [((2026, 3),
        [(⟨"A", 20513, "M1", 12⟩ : Assignment), ⟨"A", 20514, "N", 12⟩])])] : History),
        (p.2.map Prod.fst).Nodup)) ∧
    updateHistory [⟨"A", 20513, "M2", 15⟩]
        (updateHistory [⟨"A", 20513, "M2", 15⟩]
          [("A", [((2026, 3), [⟨"A", 20513, "M1", 12⟩, ⟨"A", 20514, "N", 12⟩])])]) =
      updateHistory [⟨"A", 20513, "M2", 15⟩]
        [("A", [((2026, 3), [⟨"A", 20513, "M1", 12⟩, ⟨"A", 20514, "N", 12⟩])])] ∧
    (⟨"A", 20514, "N", 12⟩ : Assignment) ∈
      histCell (updateHistory [⟨"A", 20513, "M2", 15⟩]
        [("A", [((2026, 3), [⟨"A", 20513, "M1", 12⟩, ⟨"A", 20514, "N", 12⟩])])]) "A" (2026, 3) := by
  refine ⟨⟨by decide, by decide⟩, ?_, ?_⟩
  · exact (update_history_idempotent [⟨"A", 20513, "M2", 15⟩]
      [("A", [((2026, 3), [⟨"A", 20513, "M1", 12⟩, ⟨"A", 20514, "N", 12⟩])])]
      (by decide) (by decide)).1
  · refine (update_history_idempotent [⟨"A", 20513, "M2", 15⟩]
      [("A", [((2026, 3), [⟨"A", 20513, "M1", 12⟩, ⟨"A", 20514, "N", 12⟩])])]
      (by decide) (by decide)).2 "A" (2026, 3) ⟨"A", 20514, "N", 12⟩ (by decide) ?_
    intro a ha
    have : a = (⟨"A", 20513, "M2", 15⟩ : Assignment) := by simpa using ha
    subst this
    decide

/-- Witness for C4: worker A has a historical M2 shift (ending hour 23) on
Sunday 2026-03-01 (day 20513); for the window starting Monday 2026-03-02,
Monday's M1 (9h gap, index 0) is blocked, while Tuesday's M1 (33h gap, index
3) is not blocked. -/
theorem cross_week_rest_blocking_witness :
    ([(20514 : Date), 20515] ≠ [] ∧
      ([("A", [(((2026 : Int), (3 : Int)), [(⟨"A", 20513, "M2", 15⟩ : Assignment)])])] :
        History) ≠ [] ∧
      fixedShiftFor [("A", [((2026, 3), [⟨"A", 20513, "M2", 15⟩])])] "A" 20513 = some "M2") ∧
    (0, 0) ∈ crossWeekBlocked (createShifts [20514, 20515]) [⟨"A", true, 12⟩]
      [20514, 20515] [("A", [((2026, 3), [⟨"A", 20513, "M2", 15⟩])])] ∧
    (0, 3) ∉ crossWeekBlocked (createShifts [20514, 20515]) [⟨"A", true, 12⟩]
      [20514, 20515] [("A", [((2026, 3), [⟨"A", 20513, "M2", 15⟩])])] := by
  refine ⟨⟨by decide, by decide, by decide⟩, ?_, ?_⟩
  · exact (cross_week_rest_blocking (createShifts [20514, 20515]) [⟨"A", true, 12⟩]
      [20514, 20515] [("A", [((2026, 3), [⟨"A", 20513, "M2", 15⟩])])]
      (by decide) (by decide) 0 0 (by decide) (by decide)).1
      20513 (by decide) "M2" ⟨8, 23, 15, false⟩ (by decide) (by decide)
      (Or.inr (by decide))
  · refine (cross_week_rest_blocking (createShifts [20514, 20515]) [⟨"A", true, 12⟩]
      [20514, 20515] [("A", [((2026, 3), [⟨"A", 20513, "M2", 15⟩])])]
      (by decide) (by decide) 0 3 (by decide) (by decide)).2 ?_
    intro histDay hmem st cfg hfix hlook
    have hm : histDay = 20513 ∨ histDay = 20512 := by simpa using hmem
    rcases hm with rfl | rfl
    · have h0 : fixedShiftFor [("A", [((2026, 3), [(⟨"A", 20513, "M2", 15⟩ : Assignment)])])]
          (workerAt [⟨"A", true, 12⟩] 0).name 20513 = some "M2" := by decide
      have hst : st = "M2" := (Option.some.inj (h0.symm.trans hfix)).symm
      subst hst
      have hcfg : cfg = ⟨8, 23, 15, false⟩ := by
        have h1 : SHIFTS.lookup "M2" = some ⟨8, 23, 15, false⟩ := rfl
        exact (Option.some.inj (h1.symm.trans hlook)).symm
      subst hcfg
      exact ⟨by decide, by decide⟩
    · have h0 : fixedShiftFor [("A", [((2026, 3), [(⟨"A", 20513, "M2", 15⟩ : Assignment)])])]
          (workerAt [⟨"A", true, 12⟩] 0).name 20512 = none := by decide
      rw [h0] at hfix
      exact absurd hfix (by simp)

/-! ### Lemmas for the staged solve driver -/

theorem earlyStop_zero (elapsed : Nat → ℚ) : earlyStop elapsed 0 = false := by
  simp [earlyStop]

theorem fixesOf_zero (stageNames : List String) (vals : Nat → Int) :
    fixesOf stageNames vals 0 = [] := rfl

theorem fixesOf_succ (stageNames : List String) (vals : Nat → Int) (k : Nat) :
    fixesOf stageNames vals (k + 1) =
      fixesOf stageNames vals k ++ [(stageNames.getD k "", vals k)] := by
  unfold fixesOf
  rw [List.range_succ, List.map_append]
  rfl

theorem runStages_spec (oracle : List (String × Int) → Nat → StageOutcome)
    (elapsed : Nat → ℚ) (stageNames : List String) (vals : Nat → Int)
    (vfun : Nat → Valuation) (k : Nat) (hk1 : 1 ≤ k) (hklen : k ≤ stageNames.length)
    (hsucc : ∀ m < k, earlyStop elapsed m = false ∧
      oracle (fixesOf stageNames vals m) m = .sol (vfun m) (vals m))
    (hstop : k < stageNames.length → earlyStop elapsed k = false →
      oracle (fixesOf stageNames vals k) k = .fail) :
    ∀ p ≤ k, 1 ≤ p →
      runStages oracle elapsed (stageNames.drop p) p (fixesOf stageNames vals p)
        (some (vfun (p - 1))) = (some (vfun (k - 1)), fixesOf stageNames vals k) := by
  intro p hpk hp1
  obtain ⟨n, hn⟩ : ∃ n, k - p = n := ⟨_, rfl⟩
  induction n generalizing p with
  | zero =>
    have hpk' : p = k := by omega
    subst hpk'
    rcases Nat.lt_or_ge p stageNames.length with hlt | hge
    · rw [List.drop_eq_getElem_cons hlt]
      unfold runStages
      by_cases hes : earlyStop elapsed p = true
      · rw [if_pos hes]
      · rw [if_neg hes, hstop hlt (by simpa using hes)]
        show (if p = 0 then ((none : Option Valuation), fixesOf stageNames vals p)
          else (some (vfun (p - 1)), fixesOf stageNames vals p)) =
          (some (vfun (p - 1)), fixesOf stageNames vals p)
        rw [if_neg (by omega : ¬(p = 0))]
    · have hnil : stageNames.drop p = [] := List.drop_eq_nil_of_le hge
      rw [hnil]
      rfl
  | succ n ih =>
    have hplt : p < k := by omega
    have hplen : p < stageNames.length := lt_of_lt_of_le hplt hklen
    rw [List.drop_eq_getElem_cons hplen]
    unfold runStages
    obtain ⟨hes, hor⟩ := hsucc p hplt
    rw [if_neg (by rw [hes]; exact Bool.false_ne_true), hor]
    show runStages oracle elapsed (stageNames.drop (p + 1)) (p + 1)
        (fixesOf stageNames vals p ++ [(stageNames[p], vals p)]) (some (vfun p)) =
      (some (vfun (k - 1)), fixesOf stageNames vals k)
    have hfix : fixesOf stageNames vals p ++ [(stageNames[p], vals p)] =
        fixesOf stageNames vals (p + 1) := by
      rw [fixesOf_succ, List.getD_eq_getElem _ _ hplen]
    rw [hfix]
    have := ih (p + 1) (by omega) (by omega) (by omega)
    simpa using this

/-- C2: in lexicographic mode the driver fixes each solved stage's objective
value as a hard constraint before the next stage (the oracle for stage `m`
receives exactly the (name, value) pairs of stages `0..m-1`); if a stage
after the first fails (or the loop stops early on time), the previous
stage's solution is kept and returned as a success with schedule, weekly
summary and assignments extracted from it; if the first stage fails, the
call returns empty outputs with the error recorded in stats. -/
theorem staged_solve_contract
    (oracle : List (String × Int) → Nat → StageOutcome) (elapsed : Nat → ℚ)
    (stageNames : List String) (shifts : List Shift) (days : List Date) (month : Int)
    (shiftsByDay : List (Date × List Nat)) (isoWeeks : List ((Int × Int) × List Nat))
    (workers : List Worker) :
    (stageNames ≠ [] → oracle [] 0 = .fail →
      solveAndExtractStaged oracle elapsed stageNames shifts days month shiftsByDay
          isoWeeks workers =
        { schedule := [], weekly := [], assignments := []
          statsError := some "No feasible solution found in staged optimization"
          stageValues := [] }) ∧
    (∀ (k : Nat) (vals : Nat → Int) (vfun : Nat → Valuation),
      1 ≤ k → k ≤ stageNames.length →
      (∀ m < k, earlyStop elapsed m = false ∧
        oracle (fixesOf stageNames vals m) m = .sol (vfun m) (vals m)) →
      (k < stageNames.length → earlyStop elapsed k = false →
        oracle (fixesOf stageNames vals k) k = .fail) →
      solveAndExtractStaged oracle elapsed stageNames shifts days month shiftsByDay
          isoWeeks workers =
        { schedule := extractSchedule days month shiftsByDay shifts workers (vfun (k - 1))
          weekly := extractWeekly isoWeeks shifts workers (vfun (k - 1))
          assignments := extractAssignments shifts.length shifts workers (vfun (k - 1))
          statsError := none
          stageValues := fixesOf stageNames vals k }) := by
  constructor
  · intro hne hfail
    cases stageNames with
    | nil => exact absurd rfl hne
    | cons n0 rest =>
      unfold solveAndExtractStaged runStages
      rw [earlyStop_zero]
      simp [hfail]
  · intro k vals vfun hk1 hklen hsucc hstop
    have hrun := runStages_spec oracle elapsed stageNames vals vfun k hk1 hklen hsucc hstop
    have h1len : 0 < stageNames.length := lt_of_lt_of_le (by omega) hklen
    cases stageNames with
    | nil => simp at h1len
    | cons n0 rest =>
      have hstep0 : runStages oracle elapsed (n0 :: rest) 0 [] none =
          (some (vfun (k - 1)), fixesOf (n0 :: rest) vals k) := by
        obtain ⟨hes, hor⟩ := hsucc 0 (by omega)
        rw [fixesOf_zero] at hor
        unfold runStages
        rw [if_neg (by rw [earlyStop_zero]; exact Bool.false_ne_true), hor]
        show runStages oracle elapsed rest 1 (fixesOf (n0 :: rest) vals 1)
            (some (vfun 0)) = (some (vfun (k - 1)), fixesOf (n0 :: rest) vals k)
        have := hrun 1 hk1 le_rfl
        simpa using this
      unfold solveAndExtractStaged
      rw [hstep0]

/-- Witness for C2: two stages, an oracle that solves stage 0 with value 10
and fails stage 1; the result keeps stage 0's solution as a success and
records the fixed stage value. -/
theorem staged_solve_contract_witness :
    ((1 : Nat) ≤ 1 ∧ (1 : Nat) ≤ (["a", "b"] : List String).length ∧
      (∀ m < 1, earlyStop (fun _ => 0) m = false ∧
        (fun _ idx =>
            if idx = 0 then StageOutcome.sol (fun w s => w == 0 && s == 0) 10
            else StageOutcome.fail)
          (fixesOf ["a", "b"] (fun _ => 10) m) m =
          .sol ((fun _ => (fun w s => w == 0 && s == 0) : Nat → Valuation) m)
            ((fun _ => (10 : Int)) m))) ∧
    solveAndExtractStaged
        (fun _ idx =>
          if idx = 0 then StageOutcome.sol (fun w s => w == 0 && s == 0) 10
          else StageOutcome.fail)
        (fun _ => 0) ["a", "b"] [] [] 1 [] [] [] =
      { schedule := [], weekly := [], assignments := []
        statsError := none
        stageValues := [("a", 10)] } := by
  refine ⟨⟨le_rfl, by decide, ?_⟩, ?_⟩
  · intro m hm
    have hm0 : m = 0 := by omega
    subst hm0
    exact ⟨earlyStop_zero _, rfl⟩
  · have := (staged_solve_contract
      (fun _ idx =>
        if idx = 0 then StageOutcome.sol (fun w s => w == 0 && s == 0) 10
        else StageOutcome.fail)
      (fun _ => 0) ["a", "b"] [] [] 1 [] [] []).2 1
      (fun _ => 10) (fun _ => (fun w s => w == 0 && s == 0)) le_rfl (by decide)
      (fun m hm => by
        have hm0 : m = 0 := by omega
        subst hm0
        exact ⟨earlyStop_zero _, rfl⟩)
      (fun _ _ => rfl)
    simpa using this

/-- C5: for shift instances with positive duration (as all window shifts
built by `create_shifts` are), the sorted-sweep 24h-rest builder forbids
exactly the same unordered (shift, shift) pairs as the exhaustive all-pairs
builder. -/
theorem sweep_builder_equals_exhaustive (shifts : List Shift)
    (hwf : ∀ sh ∈ shifts, sh.start < sh.stop) (i j : Nat) :
    ((i, j) ∈ sweepForbidden shifts ∨ (j, i) ∈ sweepForbidden shifts) ↔
      ((i, j) ∈ allPairsForbidden shifts ∨ (j, i) ∈ allPairsForbidden shifts) := by
  have hwf' : ∀ s : Nat, s < shifts.length →
      (shiftAt shifts s).start < (shiftAt shifts s).stop :=
    fun s hs => hwf _ (shiftAt_mem hs)
  constructor
  · rintro (h | h)
    · exact sweep_sub_allPairs hwf' h
    · rcases sweep_sub_allPairs hwf' h with h' | h'
      · exact Or.inr h'
      · exact Or.inl h'
  · rintro (h | h)
    · exact allPairs_sub_sweep hwf' h
    · rcases allPairs_sub_sweep hwf' h with h' | h'
      · exact Or.inr h'
      · exact Or.inl h'

/-- Witness for C5: on a two-day window, the M2-of-day-0 / M1-of-day-1 pair
(9 hours of rest) is forbidden by the exhaustive builder, hence by the sweep
builder as well. -/
theorem sweep_builder_equals_exhaustive_witness :
    ((∀ sh ∈ createShifts [0, 1], sh.start < sh.stop) ∧
      (1, 3) ∈ allPairsForbidden (createShifts [0, 1])) ∧
    ((1, 3) ∈ sweepForbidden (createShifts [0, 1]) ∨
      (3, 1) ∈ sweepForbidden (createShifts [0, 1])) :=
  ⟨⟨by decide, by decide⟩,
   (sweep_builder_equals_exhaustive (createShifts [0, 1]) (by decide) 1 3).2
     (Or.inl (by decide))⟩

/-- C6: with `holidays` equal to `None`, `[]`, or a list of day-of-month
integers, the engine's holiday set contains every computed holiday of every
(year, month) pair occurring among the days of the ISO-week-widened window;
in particular a holiday of an adjacent month falling inside the window is
included even when the target month has none of its own. -/
theorem holiday_auto_extension_covers_window_months
    (year month : Int) (holidays : Option (List HolEntry))
    (hauto : holidays = none ∨ holidays = some [] ∨
      ∃ l, holidays = some l ∧ ∀ e ∈ l, ∃ n, e = HolEntry.ofInt n)
    (d : Date) (hd : d ∈ (setupHolidaysAndDaysEngine year month holidays).2)
    (dayNum : Int) (hdn : dayNum ∈ computeHolidays (yearOf d) (monthOf d))
    (hdate : Date) (hmk : mkDate? (yearOf d) (monthOf d) dayNum = some hdate) :
    hdate ∈ (setupHolidaysAndDaysEngine year month holidays).1 := by
  have hext : shouldAutoExtend holidays = true := by
    rcases hauto with rfl | rfl | ⟨l, rfl, hl⟩
    · rfl
    · rfl
    · simp only [shouldAutoExtend, Bool.or_eq_true, List.all_eq_true]
      right
      intro e he
      obtain ⟨n, rfl⟩ := hl e he
      rfl
  have hd' : d ∈ (setupHolidaysAndDays year month holidays).2 := by
    simpa [setupHolidaysAndDaysEngine] using hd
  have hmonoInner : ∀ (acc : List Date) (x : Int) (b : Date), b ∈ acc →
      b ∈ (match mkDate? (yearOf d) (monthOf d) x with
        | some dt => insertDate acc dt
        | none => acc) := by
    intro acc x b hb
    cases mkDate? (yearOf d) (monthOf d) x
    · exact hb
    · exact mem_insertDate hb
  have hmono : ∀ (acc : List Date) (ym : Int × Int) (b : Date), b ∈ acc →
      b ∈ (computeHolidays ym.1 ym.2).foldl
        (fun acc hd' => match mkDate? ym.1 ym.2 hd' with
          | some dt => insertDate acc dt
          | none => acc) acc := by
    intro acc ym b hb
    refine foldl_mem_mono ?_ _ _ _ hb
    intro acc' x b' hb'
    cases mkDate? ym.1 ym.2 x
    · exact hb'
    · exact mem_insertDate hb'
  simp only [setupHolidaysAndDaysEngine, hext, if_true]
  refine foldl_mem_of_elem ?_ (mem_monthsInWindow hd') ?_ _
  · intro acc ym b hb
    exact hmono acc ym b hb
  · intro acc
    refine foldl_mem_of_elem hmonoInner hdn ?_ acc
    intro acc'
    simp only [hmk]
    exact self_mem_insertDate acc' hdate

/-- Witness for C6: scheduling March 2026 with an explicitly empty holiday
list; March 2026 has no holidays of its own, Good Friday 2026-04-03 lies in
the widened window (which ends 2026-04-05) and appears in the engine's
holiday set. -/
theorem holiday_auto_extension_witness :
    ((some [] : Option (List HolEntry)) = none ∨ (some [] : Option (List HolEntry)) = some [] ∨
      ∃ l, (some [] : Option (List HolEntry)) = some l ∧ ∀ e ∈ l, ∃ n, e = HolEntry.ofInt n) ∧
    computeHolidays 2026 3 = [] ∧
    daysFromCivil 2026 4 3 ∈ (setupHolidaysAndDaysEngine 2026 3 (some [])).2 ∧
    (3 : Int) ∈ computeHolidays (yearOf (daysFromCivil 2026 4 3))
      (monthOf (daysFromCivil 2026 4 3)) ∧
    daysFromCivil 2026 4 3 ∈ (setupHolidaysAndDaysEngine 2026 3 (some [])).1 :=
  ⟨Or.inr (Or.inl rfl), by decide, by decide, by decide,
   holiday_auto_extension_covers_window_months 2026 3 (some []) (Or.inr (Or.inl rfl))
     (daysFromCivil 2026 4 3) (by decide) 3 (by decide) (daysFromCivil 2026 4 3) (by decide)⟩

theorem createShifts_type_cases {days : List Date} {s : Nat}
    (hs : s < (createShifts days).length) :
    ((shiftAt (createShifts days) s).type = "M1" ∧
        (shiftAt (createShifts days) s).night = false) ∨
      ((shiftAt (createShifts days) s).type = "M2" ∧
        (shiftAt (createShifts days) s).night = false) ∨
      ((shiftAt (createShifts days) s).type = "N" ∧
        (shiftAt (createShifts days) s).night = true) := by
  set sh := shiftAt (createShifts days) s with hshdef
  have hmem : sh ∈ createShifts days := hshdef ▸ shiftAt_mem hs
  rw [createShifts, List.mem_flatMap] at hmem
  obtain ⟨d, _, hsh⟩ := hmem
  rw [List.mem_map] at hsh
  obtain ⟨cfg, hcfg, hsh⟩ := hsh
  have hc : cfg = ("M1", (⟨8, 20, 12, false⟩ : ShiftConfig)) ∨
      cfg = ("M2", (⟨8, 23, 15, false⟩ : ShiftConfig)) ∨
      cfg = ("N", (⟨20, 32, 12, true⟩ : ShiftConfig)) := by
    simpa [SHIFTS] using hcfg
  rcases hc with rfl | rfl | rfl
  · exact Or.inl ⟨by rw [← hsh], by rw [← hsh]⟩
  · exact Or.inr (Or.inl ⟨by rw [← hsh], by rw [← hsh]⟩)
  · exact Or.inr (Or.inr ⟨by rw [← hsh], by rw [← hsh]⟩)

/-- C8: for the shift set of `create_shifts`, the ten `EQUITY_STATS` index
lists computed by `define_stat_indices` partition the shift indices: every
shift index lies in exactly one of the ten bucket lists. -/
theorem equity_stats_partition (days : List Date) (holidaySet : List Date)
    (s : Nat) (hs : s < (createShifts days).length) :
    (equityStatIndexLists (createShifts days) holidaySet).countP
      (fun L => decide (s ∈ L)) = 1 := by
  have hattr := createShifts_type_cases hs
  have hwd0 : 0 ≤ weekdayOf (shiftAt (createShifts days) s).day :=
    Int.emod_nonneg _ (by norm_num)
  have hwd7 : weekdayOf (shiftAt (createShifts days) s).day < 7 :=
    Int.emod_lt_of_pos _ (by norm_num)
  have hwdcases : weekdayOf (shiftAt (createShifts days) s).day = 0 ∨
      weekdayOf (shiftAt (createShifts days) s).day = 1 ∨
      weekdayOf (shiftAt (createShifts days) s).day = 2 ∨
      weekdayOf (shiftAt (createShifts days) s).day = 3 ∨
      weekdayOf (shiftAt (createShifts days) s).day = 4 ∨
      weekdayOf (shiftAt (createShifts days) s).day = 5 ∨
      weekdayOf (shiftAt (createShifts days) s).day = 6 := by omega
  rcases hattr with ⟨ht, hn⟩ | ⟨ht, hn⟩ | ⟨ht, hn⟩ <;>
    rcases hwdcases with hw | hw | hw | hw | hw | hw | hw <;>
    by_cases hhol : (shiftAt (createShifts days) s).day ∈ holidaySet <;>
    simp [equityStatIndexLists, List.countP_cons, satNIndices, sunHolidayM2Indices,
      sunHolidayM1Indices, sunHolidayNIndices, satM2Indices, satM1Indices,
      friNightIndices, weekdayNotFriNIndices, mondayDayIndices, weekdayNotMonDayIndices,
      List.mem_filter, List.mem_range, isSaturdayIdx, isSundayIdx, isHolidayIdx,
      isWeekdayHolidayIdx, isSaturdayHolidayIdx, isNightIdx, isM1Idx, isM2Idx,
      isDayShiftIdx, isMondayIdx, isFridayIdx, isWeekdayIdx, ht, hn, hw, hhol, hs]

/-- Witness for C8: a single Saturday-holiday day (2026-02-28, day 20512);
its night shift (index 2) is counted only in the `sat_n` bucket (not in
`sun_holiday_n`), and its M2 day shift (index 1) only in `sun_holiday_m2`
(not in `sat_m2`). -/
theorem equity_stats_partition_witness :
    ((2 : Nat) < (createShifts [20512]).length ∧
      (equityStatIndexLists (createShifts [20512]) [20512]).countP
        (fun L => decide (2 ∈ L)) = 1 ∧
      (equityStatIndexLists (createShifts [20512]) [20512]).countP
        (fun L => decide (1 ∈ L)) = 1) ∧
    2 ∈ satNIndices (createShifts [20512]) ∧
    2 ∉ sunHolidayNIndices (createShifts [20512]) [20512] ∧
    1 ∈ sunHolidayM2Indices (createShifts [20512]) [20512] ∧
    1 ∉ satM2Indices (createShifts [20512]) [20512] :=
  ⟨⟨by decide,
    equity_stats_partition [20512] [20512] 2 (by decide),
    equity_stats_partition [20512] [20512] 1 (by decide)⟩,
   by decide, by decide, by decide, by decide⟩

/-- Witness for C10: a two-day window, the night shifts are indices 2 and 5,
their days are consecutive, and the penalty triple is generated. -/
theorem consecutive_night_exemption_never_fires_witness :
    ((0 : Nat) < 1 ∧
      ((2 : Nat), (5 : Nat)) ∈ pairsAfter (nightShiftIndices (createShifts [0, 1])) ∧
      ((shiftAt (createShifts [0, 1]) 5).day - (shiftAt (createShifts [0, 1]) 2).day).natAbs = 1) ∧
    (0, 2, 5) ∈ consecNightTerms (createShifts [0, 1]) 1 :=
  ⟨⟨by decide, by decide, by decide⟩,
   (consecutive_night_exemption_never_fires [0, 1] 1 0 2 5 (by decide) (by decide)
     (by decide)).2⟩

end Escala
